import Mathlib

set_option maxHeartbeats 2000000
set_option maxRecDepth 4000

/-!
Shallow embedding of the batch categorization engine of `mealie-scripts`
(`src/mealie_organizer/categorizer_core.py` and the provider backoff code of
`src/mealie_organizer/recipe_categorizer.py`).

Modeling conventions:
* Python strings are Lean `String`s (lists of unicode scalar chars); the rare
  Python-only corner of lone surrogate code points inside decoded JSON strings
  is collapsed by `Char.ofNat` to the null character (noted at `parseStringBody`).
* `json.loads` is embedded as a fuel-driven recursive-descent parser for the
  grammar Python's `json` module accepts (strict JSON plus `NaN`, `Infinity`,
  `-Infinity`); numbers are kept as their source lexemes, JSON objects are
  key/value lists with Python-dict semantics (insertion order, last value wins).
* Regex character class `\w` and `str.lower()` are modeled on the ASCII
  fragment (`Char.isAlphanum`, `Char.toLower`); all theorems below that
  quantify over documents only ever depend on the ASCII fragment.
* Python floats (`random.uniform` jitter, backoff bases) are modeled as `ℚ`;
  the bases `1.25`, `1.5` and the jitter bounds `0.75`, `0.5` are exactly
  representable dyadic rationals.
* Exceptions that abort a worker batch (e.g. `AttributeError` from calling
  `.strip()` on a non-string) are modeled with `Option`/explicit `crashed`
  flags; the run-level coordinator catches them, so a crash truncates a batch's
  effects but never aborts sibling batches.
-/

namespace Mealie

/-! ### Character classes and Python string helpers -/

/-- The backtick character (kept out of literals for readability). -/
def btick : Char := Char.ofNat 96

/-- The ASCII single-quote character. -/
def squote : Char := Char.ofNat 39

/-- Python `str.strip()` / regex `\s` whitespace: space, tab, newline,
carriage return, vertical tab, form feed. -/
def isPyWs (c : Char) : Bool :=
  c == ' ' || c == '\t' || c == '\n' || c == '\r' || c == Char.ofNat 11 || c == Char.ofNat 12

/-- JSON inter-token whitespace accepted by Python's `json.loads`. -/
def isJsonWs (c : Char) : Bool :=
  c == ' ' || c == '\t' || c == '\n' || c == '\r'

/-- Regex `\w` on the ASCII fragment: letters, digits, underscore. -/
def isWordChar (c : Char) : Bool :=
  c.isAlphanum || c == '_'

/-- Python `str.strip()` on a character list. -/
def pyStrip (l : List Char) : List Char :=
  ((l.dropWhile isPyWs).reverse.dropWhile isPyWs).reverse

/-- Python `str.strip()` on a `String`. -/
def pyStripStr (s : String) : String :=
  String.mk (pyStrip s.data)

/-! ### The cleaning pipeline of `parse_json_response` -/

/-- `re.sub(r"^\x60\x60\x60(?:json)?\s*", "", cleaned, flags=re.IGNORECASE)`:
drop one leading code-fence marker, an optional case-insensitive `json` tag,
and the whitespace that follows them.  The pattern is anchored, so at most one
substitution happens, at the very start. -/
def removeLeadingFence (l : List Char) : List Char :=
  match l with
  | c1 :: c2 :: c3 :: rest =>
    if c1 = btick ∧ c2 = btick ∧ c3 = btick then
      let rest2 :=
        match rest with
        | d1 :: d2 :: d3 :: d4 :: tl =>
          if d1.toLower = 'j' ∧ d2.toLower = 's' ∧ d3.toLower = 'o' ∧ d4.toLower = 'n' then tl
          else rest
        | _ => rest
      rest2.dropWhile isPyWs
    else l
  | _ => l

/-- `re.sub(r"\s*\x60\x60\x60$", "", cleaned)`: drop one trailing code-fence
marker together with the whitespace run immediately before it. -/
def removeTrailingFence (l : List Char) : List Char :=
  match l.reverse with
  | c1 :: c2 :: c3 :: rest =>
    if c1 = btick ∧ c2 = btick ∧ c3 = btick then (rest.dropWhile isPyWs).reverse
    else l
  | _ => l

/-- The chained `str.replace` calls: smart double quotes and ASCII single
quotes all become standard double quotes. -/
def normQuote (c : Char) : Char :=
  if c = Char.ofNat 0x201C ∨ c = Char.ofNat 0x201D ∨ c = squote then '"' else c

/-- Fueled worker for `rmTrailComma`; fuel is structural so that the function
reduces definitionally, and `l.length` fuel always suffices because every
recursive call strictly shortens the list. -/
def rmTrailCommaF : Nat → List Char → List Char
  | 0, l => l
  | _ + 1, [] => []
  | fuel + 1, c :: rest =>
    if c = ',' then
      match rest.dropWhile isPyWs with
      | b :: tl =>
        if b = ']' ∨ b = '}' then rest.takeWhile isPyWs ++ b :: rmTrailCommaF fuel tl
        else c :: rmTrailCommaF fuel rest
      | [] => c :: rmTrailCommaF fuel rest
    else c :: rmTrailCommaF fuel rest

/-- `re.sub(r",(\s*[\]\x7d])", r"\1", cleaned)`: drop a comma that is followed
(after optional whitespace) by a closing bracket or brace.  Scanning resumes
after the bracket, exactly as `re.sub` resumes after each match. -/
def rmTrailComma (l : List Char) : List Char :=
  rmTrailCommaF l.length l

/-- Fueled worker for `quoteBareKeys`; same fuel discipline as
`rmTrailCommaF`. -/
def quoteBareKeysF : Nat → List Char → List Char
  | 0, l => l
  | _ + 1, [] => []
  | fuel + 1, c :: rest =>
    if isWordChar c then
      match rest.dropWhile isWordChar with
      | ':' :: tl =>
        '"' :: c :: rest.takeWhile isWordChar ++ '"' :: ':' :: quoteBareKeysF fuel tl
      | r2 => c :: rest.takeWhile isWordChar ++ quoteBareKeysF fuel r2
    else c :: quoteBareKeysF fuel rest

/-- `re.sub(r"(\w+):", r'"\1":', cleaned)`: wrap a maximal run of word
characters that is immediately followed by a colon in double quotes.  A run
whose following character is not a colon can host no match at any of its
positions (every backtrack still meets a word character where the colon is
required), so the scan resumes after the run. -/
def quoteBareKeys (l : List Char) : List Char :=
  quoteBareKeysF l.length l

/-- `re.search(r"\[.*\]", cleaned, re.DOTALL)`: the greedy span from the first
opening bracket to the last closing bracket at or after it, if any. -/
def bracketSpan (l : List Char) : Option (List Char) :=
  let fromBracket := l.dropWhile (fun c => !(c == '['))
  match fromBracket with
  | [] => none
  | _ =>
    let upto := (fromBracket.reverse.dropWhile (fun c => !(c == ']'))).reverse
    if upto.isEmpty then none else some upto

/-- The full text-normalization pipeline applied before `json.loads`. -/
def cleanText (l : List Char) : List Char :=
  quoteBareKeys (rmTrailComma ((removeTrailingFence (removeLeadingFence (pyStrip l))).map normQuote))

/-- Whether a character list starts with a non-whitespace character. -/
def headNonWs : List Char → Bool
  | [] => false
  | c :: _ => !isPyWs c

/-- An opening code-fence line tagged `json`. -/
def fenceOpen : List Char := [btick, btick, btick, 'j', 's', 'o', 'n', '\n']

/-- A closing code fence on its own line. -/
def fenceClose : List Char := ['\n', btick, btick, btick]

/-- A document wrapped in a `json`-tagged code fence. -/
def fenceWrap (doc : List Char) : List Char := fenceOpen ++ doc ++ fenceClose

/-! ### `json.loads` as a recursive-descent parser -/

/-- Values produced by Python's `json.loads`.  Numbers keep their source
lexeme (Python turns them into `int`/`float`; no claim below depends on
numeric evaluation beyond zero-ness). -/
inductive JsonVal where
  | null
  | bool (b : Bool)
  | num (lexeme : String)
  | str (s : String)
  | arr (items : List JsonVal)
  | obj (fields : List (String × JsonVal))

/-- Insert into a Python dict modeled as an ordered key/value list: an
existing key keeps its position but takes the new value. -/
def objInsert : List (String × JsonVal) → String → JsonVal → List (String × JsonVal)
  | [], k, v => [(k, v)]
  | (k', v') :: rest, k, v =>
    if k' = k then (k, v) :: rest else (k', v') :: objInsert rest k v

/-- Hexadecimal digit value. -/
def hexDigit (c : Char) : Option Nat :=
  if '0' ≤ c ∧ c ≤ '9' then some (c.toNat - 48)
  else if 'a' ≤ c ∧ c ≤ 'f' then some (c.toNat - 87)
  else if 'A' ≤ c ∧ c ≤ 'F' then some (c.toNat - 55)
  else none

/-- Four hex digits, as in a `\uXXXX` escape. -/
def parseHex4 : List Char → Option (Nat × List Char)
  | a :: b :: c :: d :: rest =>
    match hexDigit a, hexDigit b, hexDigit c, hexDigit d with
    | some x, some y, some z, some w => some (((x * 16 + y) * 16 + z) * 16 + w, rest)
    | _, _, _, _ => none
  | _ => none

/-- Body of a JSON string after its opening quote, with Python's strict
escape handling: raw control characters are rejected, `\uXXXX` escapes decode
surrogate pairs (a lone surrogate, representable in a Python `str` but not as
a unicode scalar, degrades to `Char.ofNat`'s null fallback). -/
def parseStringBody : Nat → List Char → List Char → Option (String × List Char)
  | 0, _, _ => none
  | fuel + 1, l, acc =>
    match l with
    | [] => none
    | c :: rest =>
      if c = '"' then some (String.mk acc.reverse, rest)
      else if c = '\\' then
        match rest with
        | [] => none
        | e :: rest2 =>
          if e = '"' then parseStringBody fuel rest2 ('"' :: acc)
          else if e = '\\' then parseStringBody fuel rest2 ('\\' :: acc)
          else if e = '/' then parseStringBody fuel rest2 ('/' :: acc)
          else if e = 'b' then parseStringBody fuel rest2 (Char.ofNat 8 :: acc)
          else if e = 'f' then parseStringBody fuel rest2 (Char.ofNat 12 :: acc)
          else if e = 'n' then parseStringBody fuel rest2 ('\n' :: acc)
          else if e = 'r' then parseStringBody fuel rest2 ('\r' :: acc)
          else if e = 't' then parseStringBody fuel rest2 ('\t' :: acc)
          else if e = 'u' then
            match parseHex4 rest2 with
            | none => none
            | some (n, rest3) =>
              if 0xD800 ≤ n ∧ n ≤ 0xDBFF then
                match rest3 with
                | '\\' :: 'u' :: rest4 =>
                  match parseHex4 rest4 with
                  | some (m, rest5) =>
                    if 0xDC00 ≤ m ∧ m ≤ 0xDFFF then
                      parseStringBody fuel rest5
                        (Char.ofNat (0x10000 + (n - 0xD800) * 0x400 + (m - 0xDC00)) :: acc)
                    else parseStringBody fuel rest3 (Char.ofNat n :: acc)
                  | none => parseStringBody fuel rest3 (Char.ofNat n :: acc)
                | _ => parseStringBody fuel rest3 (Char.ofNat n :: acc)
              else parseStringBody fuel rest3 (Char.ofNat n :: acc)
          else none
      else if c.toNat < 0x20 then none
      else parseStringBody fuel rest (c :: acc)

/-- A JSON number per Python's `NUMBER_RE` (`-?(0|[1-9]\d*)(\.\d+)?([eE][+-]?\d+)?`),
plus the `-Infinity` constant; the matched lexeme is kept verbatim. -/
def parseNumber (l : List Char) : Option (JsonVal × List Char) :=
  match l with
  | '-' :: 'I' :: 'n' :: 'f' :: 'i' :: 'n' :: 'i' :: 't' :: 'y' :: rest =>
    some (.num "-Infinity", rest)
  | _ =>
    let signRest : List Char × List Char :=
      match l with
      | '-' :: rest => (['-'], rest)
      | _ => ([], l)
    match signRest.2 with
    | c :: rest =>
      if c.isDigit then
        let ip : List Char × List Char :=
          if c = '0' then ([c], rest)
          else (c :: rest.takeWhile Char.isDigit, rest.dropWhile Char.isDigit)
        let fp : List Char × List Char :=
          match ip.2 with
          | '.' :: r =>
            let ds := r.takeWhile Char.isDigit
            if ds.isEmpty then ([], ip.2) else ('.' :: ds, r.dropWhile Char.isDigit)
          | _ => ([], ip.2)
        let ep : List Char × List Char :=
          match fp.2 with
          | e :: r =>
            if e = 'e' ∨ e = 'E' then
              let sgnRest : List Char × List Char :=
                match r with
                | s :: r' => if s = '+' ∨ s = '-' then ([s], r') else ([], r)
                | [] => ([], r)
              let ds := sgnRest.2.takeWhile Char.isDigit
              if ds.isEmpty then ([], fp.2)
              else (e :: (sgnRest.1 ++ ds), sgnRest.2.dropWhile Char.isDigit)
            else ([], fp.2)
          | [] => ([], fp.2)
        some (.num (String.mk (signRest.1 ++ ip.1 ++ fp.1 ++ ep.1)), ep.2)
      else none
    | [] => none

/-- The three states of the recursive-descent scanner: expecting a value,
inside an array's item list, or inside an object's field list (accumulators
carried along).  Folding the mutual recursion into one mode-indexed function
keeps the recursion structural in the fuel, so it reduces definitionally. -/
inductive PMode where
  | value
  | arrItems (acc : List JsonVal)
  | objFields (acc : List (String × JsonVal))

/-- The scanner of Python's `json` module: one JSON value at the head of the
input (after whitespace) with the remainder, dispatching on the first
character; `arrItems`/`objFields` parse the comma-separated tails of
non-empty arrays and objects (dict insertion semantics for duplicate keys). -/
def parseRun : Nat → PMode → List Char → Option (JsonVal × List Char)
  | 0, _, _ => none
  | fuel + 1, .value, l =>
    match l.dropWhile isJsonWs with
    | 'n' :: 'u' :: 'l' :: 'l' :: rest => some (.null, rest)
    | 't' :: 'r' :: 'u' :: 'e' :: rest => some (.bool true, rest)
    | 'f' :: 'a' :: 'l' :: 's' :: 'e' :: rest => some (.bool false, rest)
    | 'N' :: 'a' :: 'N' :: rest => some (.num "NaN", rest)
    | 'I' :: 'n' :: 'f' :: 'i' :: 'n' :: 'i' :: 't' :: 'y' :: rest => some (.num "Infinity", rest)
    | '"' :: rest =>
      (parseStringBody (rest.length + 1) rest []).map (fun p => (.str p.1, p.2))
    | '[' :: rest =>
      (match rest.dropWhile isJsonWs with
       | ']' :: r2 => some (.arr [], r2)
       | _ => parseRun fuel (.arrItems []) rest)
    | '{' :: rest =>
      (match rest.dropWhile isJsonWs with
       | '}' :: r2 => some (.obj [], r2)
       | _ => parseRun fuel (.objFields []) rest)
    | rest => parseNumber rest
  | fuel + 1, .arrItems acc, l =>
    match parseRun fuel .value l with
    | none => none
    | some (v, rest) =>
      match rest.dropWhile isJsonWs with
      | ',' :: rest2 => parseRun fuel (.arrItems (v :: acc)) rest2
      | ']' :: rest2 => some (.arr (v :: acc).reverse, rest2)
      | _ => none
  | fuel + 1, .objFields acc, l =>
    match l.dropWhile isJsonWs with
    | '"' :: rest =>
      match parseStringBody (rest.length + 1) rest [] with
      | none => none
      | some (key, rest2) =>
        match rest2.dropWhile isJsonWs with
        | ':' :: rest3 =>
          match parseRun fuel .value rest3 with
          | none => none
          | some (v, rest4) =>
            match rest4.dropWhile isJsonWs with
            | ',' :: rest5 => parseRun fuel (.objFields (objInsert acc key v)) rest5
            | '}' :: rest5 => some (.obj (objInsert acc key v), rest5)
            | _ => none
        | _ => none
    | _ => none

/-- One JSON value at the head of the input. -/
def parseValue (fuel : Nat) (l : List Char) : Option (JsonVal × List Char) :=
  parseRun fuel .value l

/-- `json.loads` on a character list: parse one value and require only
whitespace to remain.  The fuel `2 * length + 4` dominates the parser's call
depth (every fuel step either enters a value or passes an item, and each of
those consumes at least one character). -/
def pyJsonLoads (l : List Char) : Option JsonVal :=
  match parseValue (2 * l.length + 4) l with
  | some (v, rest) => if (rest.dropWhile isJsonWs).isEmpty then some v else none
  | none => none

/-- `parse_json_response` of `categorizer_core.py`: clean the raw provider
text, attempt a strict parse, and on failure retry on the greedy
first-`[`-to-last-`]` span; all failures collapse to `none`. -/
def parse_json_response (resultText : String) : Option JsonVal :=
  let cleaned := cleanText resultText.data
  match pyJsonLoads cleaned with
  | some v => some v
  | none =>
    match bracketSpan cleaned with
    | some sub => pyJsonLoads sub
    | none => none

/-! ### Python truthiness and dict access on JSON values -/

/-- Whether a number lexeme denotes the Python value `0`/`0.0` (all mantissa
digits zero); `NaN`/`Infinity` contain non-zero characters and stay truthy. -/
def numIsZero (lexeme : String) : Bool :=
  let l := if lexeme.data.head? = some '-' then lexeme.data.tail else lexeme.data
  (l.takeWhile (fun c => !(c == 'e' || c == 'E'))).all (fun c => c == '0' || c == '.')

/-- Python truthiness of a decoded JSON value. -/
def pyTruthy : JsonVal → Bool
  | .null => false
  | .bool b => b
  | .num lex => !(numIsZero lex)
  | .str s => !s.data.isEmpty
  | .arr l => !l.isEmpty
  | .obj l => !l.isEmpty

/-- Truthiness of an optional value (`None` is falsy). -/
def pyTruthyOpt : Option JsonVal → Bool
  | none => false
  | some v => pyTruthy v

/-- `dict.get(k)` on a decoded JSON object.  A JSON `null` value and an
absent key both surface as Python `None`, so they are collapsed to `none`. -/
def objGet (fields : List (String × JsonVal)) (k : String) : Option JsonVal :=
  match fields with
  | [] => none
  | (k', v) :: rest =>
    if k' = k then (match v with | .null => none | _ => some v) else objGet rest k

/-- Lookup in a Python dict modeled as an ordered key/value list. -/
def assocGet {α : Type} : List (String × α) → String → Option α
  | [], _ => none
  | (k', v) :: rest, k => if k' = k then some v else assocGet rest k

/-- `d[k] = v` on a Python dict: an existing key keeps its position but takes
the new value. -/
def assocInsert {α : Type} : List (String × α) → String → α → List (String × α)
  | [], k, v => [(k, v)]
  | (k', v') :: rest, k, v =>
    if k' = k then (k, v) :: rest else (k', v') :: assocInsert rest k v

/-- `(d.get(k) or "").strip()`: absent or falsy values become the empty
string, a truthy string is stripped, and a truthy non-string raises
`AttributeError` (modeled as `none`). -/
def getStrippedStrField (fields : List (String × JsonVal)) (k : String) : Option String :=
  match objGet fields k with
  | none => some ""
  | some v =>
    if pyTruthy v then
      match v with
      | .str s => some (pyStripStr s)
      | _ => none
    else some ""

/-! ### `safe_query_with_retry` and the backoff delays -/

/-- Observable outcome of one `safe_query_with_retry` run: the value returned,
how many times the provider callable was invoked, and the backoff delays slept
between attempts, in order. -/
structure QueryOutcome where
  result : Option JsonVal
  calls : Nat
  sleeps : List ℚ

/-- The body of one attempt: `result = self.query_text(...)`, then
`if result:` (non-empty text), then `parsed = parse_json_response(result)`,
then `if parsed:` (a *truthy* parse — `None`, but also `[]`, `0`, `""` and
`false`, fall through to a retry). -/
def attemptSuccess (q : Nat → Option String) (attempt : Nat) : Option JsonVal :=
  match q attempt with
  | none => none
  | some text =>
    if text.data.isEmpty then none
    else
      match parse_json_response text with
      | some v => if pyTruthy v then some v else none
      | none => none

/-- The retry loop of `safe_query_with_retry`, with the provider modeled as a
response per attempt index and `random.uniform(0, 0.75)` as an injected jitter
source.  A sleep of `base * 2 ^ attempt + jitter attempt` happens after every
failed attempt except the last. -/
def safeQueryLoop (q : Nat → Option String) (base : ℚ) (jitter : Nat → ℚ) :
    Nat → Nat → QueryOutcome
  | 0, _ => ⟨none, 0, []⟩
  | remaining + 1, attempt =>
    match attemptSuccess q attempt with
    | some v => ⟨some v, 1, []⟩
    | none =>
      if remaining = 0 then ⟨none, 1, []⟩
      else
        let rest := safeQueryLoop q base jitter remaining (attempt + 1)
        ⟨rest.result, rest.calls + 1, (base * 2 ^ attempt + jitter attempt) :: rest.sleeps⟩

/-- `self.query_retries = max(1, env_or_config(..., 3, int))`: the configured
attempt budget, clamped to at least one. -/
def clampedQueryRetries (n : Int) : Nat := (max 1 n).toNat

/-- `safe_query_with_retry` with the attempt budget already resolved (the
default is `clampedQueryRetries` of the configured value, 3 by default). -/
def safe_query_with_retry (q : Nat → Option String) (base : ℚ) (jitter : Nat → ℚ)
    (attempts : Nat) : QueryOutcome :=
  safeQueryLoop q base jitter attempts 0

/-- Expected value of the sleep before retry `k` of the query wrapper: the
jitter is uniform on `[0, 3/4)`, with mean `3/8`. -/
def expectedQueryDelay (base : ℚ) (k : Nat) : ℚ := base * 2 ^ k + 3 / 8

/-- ChatGPT-provider backoff delay for HTTP-level retry `k` (the non
`Retry-After` branch): `(1.5 * (2 ** attempt)) + random.uniform(0, 0.5)`. -/
def chatgptBackoff (attempt : Nat) (jitter : ℚ) : ℚ := 3 / 2 * 2 ^ attempt + jitter

/-- ChatGPT transient-HTTP wait including the `Retry-After` override:
`float(retry_after) if ... else 1.5 * 2 ** attempt`, plus jitter. -/
def chatgptTransientWait (retryAfter : Option ℚ) (attempt : Nat) (jitter : ℚ) : ℚ :=
  (match retryAfter with
   | some ra => ra
   | none => 3 / 2 * 2 ^ attempt) + jitter

/-- Ollama-provider backoff delay for HTTP-level retry `k`:
`(1.25 * (2 ** attempt)) + random.uniform(0, 0.5)`. -/
def ollamaBackoff (attempt : Nat) (jitter : ℚ) : ℚ := 5 / 4 * 2 ^ attempt + jitter

/-- Expected ChatGPT backoff (jitter uniform on `[0, 1/2)`, mean `1/4`). -/
def chatgptExpectedBackoff (k : Nat) : ℚ := 3 / 2 * 2 ^ k + 1 / 4

/-- Expected Ollama backoff (jitter uniform on `[0, 1/2)`, mean `1/4`). -/
def ollamaExpectedBackoff (k : Nat) : ℚ := 5 / 4 * 2 ^ k + 1 / 4

/-! ### The data model: taxonomy terms, recipes, tag dicts -/

/-- A taxonomy term dict as returned by the Mealie API (`/organizers/...`).
Each field models `term.get(key)`; an absent key and a JSON `null` value are
both Python-`None` at every use site of these fields, so they are collapsed
into `none`. -/
structure Term where
  id : Option String
  name : Option String
  slug : Option String
  groupId : Option String
deriving DecidableEq

/-- A recipe record, restricted to the fields the engine reads: `slug`
(`r.get("slug")`), `recipeCategory` and `tags` (with `or []` applied). -/
structure Recipe where
  slug : Option String
  recipeCategory : List Term
  tags : List Term
deriving DecidableEq

/-- A tag dict as consumed by the tag-candidate pipeline.  Here the outer
`Option` is key presence and the inner one a JSON `null` value, because
`run()`'s fallback uses `t.get("name", "")`, which distinguishes an absent
key (default `""`) from a present `null` (Python `None`, whose `.strip()`
raises). -/
structure TagInfo where
  name : Option (Option String)
deriving DecidableEq

/-! ### Tag usage and candidate filtering -/

/-- `(tag.get("name") or "").strip()` for a recipe's tag dict. -/
def termNameOrEmpty (t : Term) : String := pyStripStr (t.name.getD "")

/-- `(tag.get("name") or "").strip()` for a taxonomy tag dict. -/
def tagInfoNameOrEmpty (t : TagInfo) : String :=
  match t.name with
  | some (some s) => pyStripStr s
  | _ => ""

/-- `build_tag_usage`: count, per non-empty stripped tag name, the recipes
referencing it. -/
def build_tag_usage (recipes : List Recipe) : List (String × Nat) :=
  recipes.foldl
    (fun usage r =>
      r.tags.foldl
        (fun usage t =>
          let name := termNameOrEmpty t
          if name = "" then usage
          else assocInsert usage name ((assocGet usage name).getD 0 + 1))
        usage)
    []

/-- `str.lower()` on the ASCII fragment. -/
def lowerStr (s : String) : String := String.mk (s.data.map Char.toLower)

/-- List-prefix test on characters. -/
def isPrefixOfCL : List Char → List Char → Bool
  | [], _ => true
  | _ :: _, [] => false
  | a :: as, b :: bs => a == b && isPrefixOfCL as bs

/-- Substring containment (`needle in hay` on Python strings). -/
def containsSubCL : List Char → List Char → Bool
  | needle, [] => needle.isEmpty
  | needle, c :: rest => isPrefixOfCL needle (c :: rest) || containsSubCL needle rest

/-- The "noisy" phrases excluded from tag candidates. -/
def noisyPhrases : List String :=
  ["how to make", "recipe", "without drippings", "from drippings", "from scratch"]

/-- Case-insensitive `phrase in name.lower()` (phrases are lowercase). -/
def isNoisyName (name : String) : Bool :=
  noisyPhrases.any (fun p => containsSubCL p.data (lowerStr name).data)

/-- Insert into an ascending list of strings (Python `sorted` is code-point
lexicographic, as is Lean's `String` order). -/
def insertSorted (s : String) : List String → List String
  | [] => [s]
  | x :: xs => if s ≤ x then s :: x :: xs else x :: insertSorted s xs

/-- Insertion sort on strings. -/
def sortStrings (l : List String) : List String := l.foldr insertSorted []

/-- Fueled first-occurrence deduplication (fuel `l.length` always suffices
because the recursion filters, which never lengthens the list). -/
def dedupFirstF : Nat → List String → List String
  | 0, l => l
  | _ + 1, [] => []
  | fuel + 1, x :: xs => x :: dedupFirstF fuel (xs.filter (fun y => !(y == x)))

/-- First-occurrence deduplication. -/
def dedupFirst (l : List String) : List String := dedupFirstF l.length l

/-- `sorted(set(l))`: the ascending list of the distinct elements of `l`. -/
def sortedUnique (l : List String) : List String := sortStrings (dedupFirst l)

/-- `filter_tag_candidates`: drop empty names, names that are too long (when
the maximum is positive), too rarely used (when the minimum is positive) or
noisy; return the sorted set of the survivors.  (The excluded-tags preview
only feeds a log line and has no further effect.) -/
def filter_tag_candidates (tagMaxNameLength tagMinUsage : Int) (tags : List TagInfo)
    (recipes : List Recipe) : List String :=
  let usage := build_tag_usage recipes
  let candidateNames :=
    tags.filterMap (fun tag =>
      let name := tagInfoNameOrEmpty tag
      if name = "" then none
      else
        let count := (assocGet usage name).getD 0
        let tooLong := decide (0 < tagMaxNameLength) && decide (tagMaxNameLength < (name.data.length : Int))
        let tooRare := decide (0 < tagMinUsage) && decide ((count : Int) < tagMinUsage)
        if tooLong || tooRare || isNoisyName name then none else some name)
  sortedUnique candidateNames

/-- The tag vocabulary computed in `run()`: the filtered candidates, or on an
empty filter result the fallback
`sorted(name for name in {t.get("name", "").strip() for t in tags} if name)`.
The fallback calls `.strip()` on `t.get("name", "")`, so a tag whose `name`
key holds `null` raises there (`none`). -/
def runTagNames (tagMaxNameLength tagMinUsage : Int) (tags : List TagInfo)
    (recipes : List Recipe) : Option (List String) :=
  let tagNames := filter_tag_candidates tagMaxNameLength tagMinUsage tags recipes
  if tagNames.isEmpty then
    if tags.any (fun t => t.name == some none) then none
    else
      let fullNames := tags.map (fun t => pyStripStr ((t.name.getD (some "")).getD ""))
      some (sortedUnique (fullNames.filter (fun n => !(n == ""))))
  else some tagNames

/-! ### Reconciliation: `update_recipe_metadata` -/

/-- Iterating a Python value and calling `.strip()` on each element, as
`append_matches` does with its `names`: a list yields its elements (strings
required, otherwise `AttributeError`), a string yields its one-character
substrings, a dict yields its keys; other values are not iterable. -/
def pyIterStrs : JsonVal → Option (List String)
  | .arr l => l.mapM (fun x => match x with | .str s => some s | _ => none)
  | .str s => some (s.data.map (fun c => String.mk [c]))
  | .obj fields => some (fields.map Prod.fst)
  | _ => none

/-- `for name in names or []` with the subsequent `.strip()` calls: a falsy
value iterates as the empty list. -/
def namesArg (v : JsonVal) : Option (List String) :=
  if pyTruthy v then pyIterStrs v else some []

/-- The already-coerced tag-name list passed to `update_recipe_metadata`;
every element must be a string or the iteration raises. -/
def tagStrs (l : List JsonVal) : Option (List String) :=
  l.mapM (fun x => match x with | .str s => some s | _ => none)

/-- `append_matches(names, lookup, existing_set, target_list)`: resolve each
name via `lookup.get(name.strip().lower())`, skip unknown names and slugs
already in the set, append the resolved term and record its slug.  Returns
`(changed, added_names, existing_set, target_list)` (the Python function
mutates the latter two in place). -/
def appendMatches : List String → List (String × Term) → List (Option String) → List Term →
    Bool × List (Option String) × List (Option String) × List Term
  | [], _, existingSet, targetList => (false, [], existingSet, targetList)
  | name :: rest, lookup, existingSet, targetList =>
    match assocGet lookup (lowerStr (pyStripStr name)) with
    | none => appendMatches rest lookup existingSet targetList
    | some m =>
      if m.slug ∈ existingSet then appendMatches rest lookup existingSet targetList
      else
        let entry : Term := { id := m.id, name := m.name, slug := m.slug, groupId := m.groupId }
        let r := appendMatches rest lookup (m.slug :: existingSet) (targetList ++ [entry])
        (true, m.name :: r.2.1, r.2.2.1, r.2.2.2)

/-- The cache entry written on a successful update: the final category and
tag names (`c.get("name")`, possibly `None`). -/
structure CacheEntry where
  categories : List (Option String)
  tags : List (Option String)
deriving DecidableEq

/-- The JSON body of the `PATCH /recipes/slug` request: only changed fields
are present, each carrying the full new list. -/
structure UpdatePayload where
  recipeCategory : Option (List Term)
  tags : Option (List Term)
deriving DecidableEq

/-- Observable outcome of `update_recipe_metadata`: the PATCH issued (if
any) with its payload, the cache write performed (if any) keyed by the
recipe's slug, and the returned boolean. -/
structure UpdateOutcome where
  patch : Option UpdatePayload
  cacheWrite : Option (Option String × CacheEntry)
  result : Bool
deriving DecidableEq

/-- `update_recipe_metadata`, with the store's response status injected as a
parameter (it is read only when a PATCH is issued).  `none` models an
exception escaping to the batch boundary (non-string suggestion names); the
function then performed no PATCH and no cache write. -/
def update_recipe_metadata (replaceExisting : Bool) (recipe : Recipe)
    (categoryNames : JsonVal) (tagNames : List JsonVal)
    (categoriesByName tagsByName : List (String × Term)) (patchStatus : Nat) :
    Option UpdateOutcome :=
  match namesArg categoryNames, tagStrs tagNames with
  | some catNames, some tagNameStrs =>
    let existingCategories := if replaceExisting then [] else recipe.recipeCategory
    let existingTags := if replaceExisting then [] else recipe.tags
    let rc := appendMatches catNames categoriesByName (existingCategories.map Term.slug)
      existingCategories
    let rt := appendMatches tagNameStrs tagsByName (existingTags.map Term.slug) existingTags
    if rc.1 = false ∧ rt.1 = false then
      some { patch := none, cacheWrite := none, result := false }
    else
      let payload : UpdatePayload :=
        { recipeCategory := if rc.1 then some rc.2.2.2 else none,
          tags := if rt.1 then some rt.2.2.2 else none }
      if patchStatus ≠ 200 then
        some { patch := some payload, cacheWrite := none, result := false }
      else
        some { patch := some payload,
               cacheWrite := some (recipe.slug,
                 { categories := rc.2.2.2.map Term.name, tags := rt.2.2.2.map Term.name }),
               result := true }
  | _, _ => none

/-! ### The batch processor -/

/-- `re.split(r"[;,]", s)`: split at every semicolon or comma, keeping empty
pieces. -/
def splitSemiCommaF : List Char → List Char → List String
  | [], cur => [String.mk cur.reverse]
  | c :: rest, cur =>
    if c == ';' || c == ',' then String.mk cur.reverse :: splitSemiCommaF rest []
    else splitSemiCommaF rest (c :: cur)

/-- `re.split(r"[;,]", s)` on a string. -/
def splitSemiComma (s : String) : List String := splitSemiCommaF s.data []

/-- The tags field of a suggestion entry, after the processor's coercion:
`entry.get("tags")`, falling back to `entry.get("tag") or entry.get("labels")`
when `None`; a string is split on `;`/`,` and stripped, a list is taken
as-is, anything else becomes `[]`. -/
def coerceTags (fields : List (String × JsonVal)) : List JsonVal :=
  let tagsField : Option JsonVal :=
    match objGet fields "tags" with
    | some v => some v
    | none =>
      match objGet fields "tag" with
      | some v => if pyTruthy v then some v else objGet fields "labels"
      | none => objGet fields "labels"
  match tagsField with
  | some (.str s) =>
    (splitSemiComma s).filterMap (fun t =>
      let t' := pyStripStr t
      if t' == "" then none else some (.str t'))
  | some (.arr l) => l
  | _ => []

/-- `entry.get("categories") or []`. -/
def entryCategoriesVal (fields : List (String × JsonVal)) : JsonVal :=
  match objGet fields "categories" with
  | some v => if pyTruthy v then v else .arr []
  | none => .arr []

/-- First pass of `ensure_tags_for_entries`: the slugs of known entries that
lack tags, in order; `none` when an entry is not a dict or its slug field is
a truthy non-string (the loop raises there). -/
def collectMissing : List JsonVal → List (String × Recipe) → Option (List String)
  | [], _ => some []
  | e :: rest, rbs =>
    match e with
    | .obj fields =>
      match getStrippedStrField fields "slug" with
      | none => none
      | some slug =>
        let cond := !(slug == "") && (assocGet rbs slug).isSome
          && !(pyTruthyOpt (objGet fields "tags"))
        match collectMissing rest rbs with
        | none => none
        | some ms => some (if cond then slug :: ms else ms)
    | _ => none

/-- Build `tag_map` from the secondary query's result list: entries with a
truthy slug and a list-valued (after `or []`) tags field, with dict
overwrite semantics; `none` when an item is not a dict or its slug raises. -/
def buildTagMap (items : List JsonVal) : Option (List (String × JsonVal)) :=
  items.foldlM
    (fun acc item =>
      match item with
      | .obj fields =>
        match getStrippedStrField fields "slug" with
        | none => none
        | some slug =>
          let tags : JsonVal :=
            match objGet fields "tags" with
            | some v => if pyTruthy v then v else .arr []
            | none => .arr []
          match tags with
          | .arr _ => if !(slug == "") then some (assocInsert acc slug tags) else some acc
          | _ => some acc
      | _ => none)
    []

/-- Merge the recovered tags back into the entries: only entries whose slug
is in the map and whose own tags field is falsy are rewritten.  (Entries
reaching this pass already survived `collectMissing`, so the non-dict
fallthroughs are unreachable there.) -/
def applyTagMap (entries : List JsonVal) (tagMap : List (String × JsonVal)) : List JsonVal :=
  entries.map (fun e =>
    match e with
    | .obj fields =>
      match getStrippedStrField fields "slug" with
      | some slug =>
        match assocGet tagMap slug with
        | some tv =>
          if !(pyTruthyOpt (objGet fields "tags")) then .obj (objInsert fields "tags" tv)
          else .obj fields
        | none => .obj fields
      | none => e
    | _ => e)

/-- `ensure_tags_for_entries`, with the secondary tag-only query's parsed
result injected as `tagOracle`: collect entries missing tags, return
unchanged when none are missing or the query result is not a list, else
merge the recovered tags; `none` models an exception escaping. -/
def ensure_tags_for_entries (entries : List JsonVal) (recipesBySlug : List (String × Recipe))
    (tagOracle : Option JsonVal) : Option (List JsonVal) :=
  match collectMissing entries recipesBySlug with
  | none => none
  | some missing =>
    if missing.isEmpty then some entries
    else
      match tagOracle with
      | some (.arr items) =>
        match buildTagMap items with
        | none => none
        | some tagMap => some (applyTagMap entries tagMap)
      | _ => some entries

/-- One `update_recipe_metadata` invocation recorded by the batch processor:
the recipe slug plus the raw arguments handed over. -/
structure UpdateCall where
  slug : String
  categories : JsonVal
  tags : List JsonVal

/-- Whether the handed-over arguments survive `append_matches`' iteration
(used to place the batch-aborting exception faithfully). -/
def updateArgsOk (categories : JsonVal) (tags : List JsonVal) : Bool :=
  (namesArg categories).isSome && (tagStrs tags).isSome

/-- The suggestion-application loop of `process_batch`: skip entries with an
empty slug or an unknown slug, invoke `update_recipe_metadata` for the rest;
a raising entry truncates the loop (second component `true`).  The
`processed` set only feeds a warning log line and is omitted. -/
def processEntries : List JsonVal → List (String × Recipe) → List UpdateCall × Bool
  | [], _ => ([], false)
  | e :: rest, rbs =>
    match e with
    | .obj fields =>
      match getStrippedStrField fields "slug" with
      | none => ([], true)
      | some slug =>
        if slug == "" then processEntries rest rbs
        else
          match assocGet rbs slug with
          | none => processEntries rest rbs
          | some _ =>
            let cats := entryCategoriesVal fields
            let tags := coerceTags fields
            if updateArgsOk cats tags then
              let r := processEntries rest rbs
              (⟨slug, cats, tags⟩ :: r.1, r.2)
            else ([⟨slug, cats, tags⟩], true)
    | _ => ([], true)

/-- `if r.get("slug")`: a truthy slug. -/
def truthySlug (r : Recipe) : Option String :=
  match r.slug with
  | some s => if s == "" then none else some s
  | none => none

/-- One step of the `recipes_by_slug` dict comprehension. -/
def rbsStep (acc : List (String × Recipe)) (r : Recipe) : List (String × Recipe) :=
  match truthySlug r with
  | some s => assocInsert acc s r
  | none => acc

/-- `{r.get("slug"): r for r in batch if r.get("slug")}`. -/
def buildRecipesBySlug (batch : List Recipe) : List (String × Recipe) :=
  batch.foldl rbsStep []

/-- `r.get("slug") in self.cache` (the cache is a dict keyed by slug). -/
def slugInCache (cacheKeys : List String) (r : Recipe) : Bool :=
  match r.slug with
  | some s => cacheKeys.contains s
  | none => false

/-- Observable outcome of one `process_batch` call: whether a provider query
was issued, the `update_recipe_metadata` invocations in order, the total
amount added to the progress counter, and whether an exception escaped to
the coordinator. -/
structure BatchOutcome where
  queried : Bool
  updates : List UpdateCall
  progress : Nat
  crashed : Bool

/-- The entries stage of `process_batch` (the body run once the parsed
response is known to be a truthy list): run the tag back-fill, then the
suggestion-application loop, then advance progress by the size of the
`recipes_by_slug` dict unless an exception escaped. -/
def processParsedEntries (cachedCount : Nat) (remaining : List Recipe)
    (tagOracle : Option JsonVal) (entries : List JsonVal) : BatchOutcome :=
  let rbs := buildRecipesBySlug remaining
  match ensure_tags_for_entries entries rbs tagOracle with
  | none => ⟨true, [], cachedCount, true⟩
  | some entries2 =>
    let r := processEntries entries2 rbs
    if r.2 then ⟨true, r.1, cachedCount, true⟩
    else ⟨true, r.1, cachedCount + rbs.length, false⟩

/-- `isinstance(parsed, list)` on the wrapper's result: the entry list when
the value is a JSON array, `none` otherwise. -/
def parsedEntries : Option JsonVal → Option (List JsonVal)
  | some (.arr entries) => some entries
  | _ => none

/-- `process_batch`, with the primary and secondary query results injected
as oracles.  In non-replace mode, cached recipes are counted as progress and
removed before any query; a falsy or non-list parse counts the whole
remaining batch as progress; otherwise the suggestion entries drive
reconciliation and progress advances by the number of distinct truthy slugs
in the remaining batch. -/
def process_batch (replaceExisting : Bool) (cacheKeys : List String)
    (parsed tagOracle : Option JsonVal) (batch : List Recipe) : BatchOutcome :=
  if batch.isEmpty then ⟨false, [], 0, false⟩
  else
    let cachedCount := if replaceExisting then 0 else (batch.filter (slugInCache cacheKeys)).length
    let remaining := if replaceExisting then batch
      else batch.filter (fun r => !(slugInCache cacheKeys r))
    if remaining.isEmpty then ⟨false, [], cachedCount, false⟩
    else if !(pyTruthyOpt parsed) then ⟨true, [], cachedCount + remaining.length, false⟩
    else
      match parsed with
      | some (.arr entries) => processParsedEntries cachedCount remaining tagOracle entries
      | _ => ⟨true, [], cachedCount + remaining.length, false⟩

/-- `advance_progress`: add `count` to the shared `done` counter (the `if not
count: return` early exit is the identity on zero). -/
def advance_progress (done count : Nat) : Nat := done + count

/-- Fueled worker for `batch_recipes`; fuel `recipes.length` suffices for any
positive size.  (Python's `range(0, n, 0)` raises for `size = 0`; the
theorems below assume a positive batch size.) -/
def batchRecipesF : Nat → List Recipe → Nat → List (List Recipe)
  | 0, _, _ => []
  | _ + 1, [], _ => []
  | fuel + 1, r :: rest, size =>
    (r :: rest).take size :: batchRecipesF fuel ((r :: rest).drop size) size

/-- `batch_recipes`: successive slices of the target list of the given size
(the last slice may be short). -/
def batch_recipes (recipes : List Recipe) (size : Nat) : List (List Recipe) :=
  batchRecipesF recipes.length recipes size

/-- One batch of a run together with the oracle responses its two queries
would receive. -/
structure BatchInput where
  parsed : Option JsonVal
  tagOracle : Option JsonVal
  batch : List Recipe

/-- The progress contributed by one batch of a run. -/
def batchProgress (replaceExisting : Bool) (cacheKeys : List String) (bi : BatchInput) : Nat :=
  (process_batch replaceExisting cacheKeys bi.parsed bi.tagOracle bi.batch).progress

/-! ## Helper lemmas -/

/-- Dropping whitespace is the identity on a list with a non-whitespace
head. -/
theorem dropWhile_pyWs_eq_self {l : List Char} (h : headNonWs l = true) :
    l.dropWhile isPyWs = l := by
  cases l with
  | nil => rfl
  | cons c t =>
    simp only [headNonWs, Bool.not_eq_true'] at h
    simp [List.dropWhile_cons, h]

/-- `str.strip()` is the identity when both ends are non-whitespace. -/
theorem pyStrip_eq_self {l : List Char} (hh : headNonWs l = true)
    (ht : headNonWs l.reverse = true) : pyStrip l = l := by
  unfold pyStrip
  rw [dropWhile_pyWs_eq_self hh, dropWhile_pyWs_eq_self ht, List.reverse_reverse]

theorem isPyWs_btick : isPyWs btick = false := rfl

/-- The fence wrap, with its cons structure exposed. -/
theorem fenceWrap_eq (doc : List Char) :
    fenceWrap doc =
      btick :: btick :: btick :: 'j' :: 's' :: 'o' :: 'n' :: '\n' :: (doc ++ fenceClose) := by
  simp [fenceWrap, fenceOpen, List.cons_append]

theorem headNonWs_fenceWrap (doc : List Char) : headNonWs (fenceWrap doc) = true := by
  rw [fenceWrap_eq]; rfl

theorem reverse_append_fenceClose (doc : List Char) :
    (doc ++ fenceClose).reverse = btick :: btick :: btick :: '\n' :: doc.reverse := by
  simp [fenceClose, List.reverse_append]

theorem headNonWs_fenceWrap_reverse (doc : List Char) :
    headNonWs (fenceWrap doc).reverse = true := by
  have : fenceWrap doc = (fenceOpen ++ doc) ++ fenceClose := by
    simp [fenceWrap, List.append_assoc]
  rw [this, reverse_append_fenceClose]
  rfl

/-- Removing the leading fence of a wrapped document whose head is not
whitespace exposes the document followed by the closing fence. -/
theorem removeLeadingFence_fenceWrap {doc : List Char} (h : headNonWs doc = true) :
    removeLeadingFence (fenceWrap doc) = doc ++ fenceClose := by
  rw [fenceWrap_eq]
  show List.dropWhile isPyWs (doc ++ fenceClose) = doc ++ fenceClose
  apply dropWhile_pyWs_eq_self
  cases doc with
  | nil => exact absurd h (by simp [headNonWs])
  | cons c t => simpa [headNonWs, List.cons_append] using h

/-- Removing the trailing fence recovers the document when its last
character is not whitespace. -/
theorem removeTrailingFence_fenceClose {doc : List Char}
    (h : headNonWs doc.reverse = true) :
    removeTrailingFence (doc ++ fenceClose) = doc := by
  have hrw : removeTrailingFence (doc ++ fenceClose) =
      match (doc ++ fenceClose).reverse with
      | c1 :: c2 :: c3 :: rest =>
        if c1 = btick ∧ c2 = btick ∧ c3 = btick then (rest.dropWhile isPyWs).reverse
        else doc ++ fenceClose
      | _ => doc ++ fenceClose := rfl
  rw [hrw, reverse_append_fenceClose]
  show (List.dropWhile isPyWs ('\n' :: doc.reverse)).reverse = doc
  rw [List.dropWhile_cons]
  rw [if_pos (by decide : isPyWs '\n' = true)]
  rw [dropWhile_pyWs_eq_self h, List.reverse_reverse]

/-! ## C9 -/

/-- C9: `parse_json_response` is a total function into `Option`: every input
yields either a parsed value or the failure signal `none` (the embedding of
"no exception escapes"), and the plain non-JSON text `"not-json-output"`
yields the failure signal, not a partial structure. -/
theorem C9_parse_total_and_nonjson :
    (∀ s : String, parse_json_response s = none ∨ ∃ v, parse_json_response s = some v) ∧
    parse_json_response "not-json-output" = none := by
  refine ⟨fun s => ?_, rfl⟩
  cases parse_json_response s with
  | none => exact Or.inl rfl
  | some v => exact Or.inr ⟨v, rfl⟩

/-! ## C2 -/

/-- C2 counterexample: the claim fails as stated.  The document `["it's"]` is
strict JSON (its apostrophe sits inside a string literal), so wrapped in a
`json` code fence it falls under the claim, and a strict parse of the
equivalent well-formed document succeeds; but `parse_json_response` rewrites
the apostrophe to a double quote, corrupting the string, and returns the
failure signal instead of that structure. -/
theorem C2_counterexample :
    pyJsonLoads "[\"it's\"]".data = some (.arr [.str "it's"]) ∧
    parse_json_response "```json\n[\"it's\"]\n```" = none :=
  ⟨rfl, rfl⟩

/-- C2 amended: for a strict-JSON document that the quote, trailing-comma and
bare-key rewrites leave unchanged (no single or smart quotes, no word
character directly followed by a colon, no comma directly before a closing
bracket — in strings included) and with non-whitespace ends,
`parse_json_response` of the fence-wrapped document returns exactly the
strict parse; and the spec's bare-key/single-quote/trailing-comma example
normalizes to the same structure as the strict parse of its well-formed
equivalent. -/
theorem C2_normalizer_amended (doc : List Char) (v : JsonVal)
    (h1 : headNonWs doc = true) (h2 : headNonWs doc.reverse = true)
    (h3 : doc.map normQuote = doc) (h4 : rmTrailComma doc = doc)
    (h5 : quoteBareKeys doc = doc) (h6 : pyJsonLoads doc = some v) :
    parse_json_response (String.mk (fenceWrap doc)) = some v ∧
    parse_json_response "[\x7bslug: 'abc', categories: ['Dinner'], tags: ['Quick'],\x7d]" =
      pyJsonLoads "[\x7b\"slug\": \"abc\", \"categories\": [\"Dinner\"], \"tags\": [\"Quick\"]\x7d]".data := by
  constructor
  · have hclean : cleanText (fenceWrap doc) = doc := by
      unfold cleanText
      rw [pyStrip_eq_self (headNonWs_fenceWrap doc) (headNonWs_fenceWrap_reverse doc),
        removeLeadingFence_fenceWrap h1, removeTrailingFence_fenceClose h2, h3, h4, h5]
    have hrw : parse_json_response (String.mk (fenceWrap doc)) =
        match pyJsonLoads (cleanText (fenceWrap doc)) with
        | some v => some v
        | none =>
          match bracketSpan (cleanText (fenceWrap doc)) with
          | some sub => pyJsonLoads sub
          | none => none := rfl
    rw [hrw, hclean, h6]
  · rfl

/-- C2 witness: the amended theorem applied to the spec's fence example. -/
theorem C2_normalizer_amended_witness :
    headNonWs "[\"slug\"]".data = true ∧
    parse_json_response (String.mk (fenceWrap "[\"slug\"]".data)) =
      some (.arr [.str "slug"]) :=
  ⟨rfl, (C2_normalizer_amended "[\"slug\"]".data (.arr [.str "slug"])
    rfl rfl rfl rfl rfl rfl).1⟩

/-! ## The retry loop: characterization lemmas -/

/-- One unfolding of the retry loop with attempts remaining. -/
theorem safeQueryLoop_succ_eq (q : Nat → Option String) (base : ℚ) (j : Nat → ℚ)
    (r attempt : Nat) :
    safeQueryLoop q base j (r + 1) attempt =
      match attemptSuccess q attempt with
      | some v => ⟨some v, 1, []⟩
      | none =>
        if r = 0 then ⟨none, 1, []⟩
        else
          let rest := safeQueryLoop q base j r (attempt + 1)
          ⟨rest.result, rest.calls + 1, (base * 2 ^ attempt + j attempt) :: rest.sleeps⟩ := rfl

/-- The loop makes at most `remaining` provider calls. -/
theorem safeQueryLoop_calls_le (q : Nat → Option String) (base : ℚ) (j : Nat → ℚ) :
    ∀ remaining attempt, (safeQueryLoop q base j remaining attempt).calls ≤ remaining := by
  intro remaining
  induction remaining with
  | zero => intro attempt; exact Nat.le_refl 0
  | succ r ih =>
    intro attempt
    cases hs : attemptSuccess q attempt with
    | some v =>
      rw [safeQueryLoop_succ_eq, hs]
      show 1 ≤ r + 1
      omega
    | none =>
      rw [safeQueryLoop_succ_eq, hs]
      cases r with
      | zero =>
        show 1 ≤ 1
        omega
      | succ r' =>
        show (safeQueryLoop q base j (r' + 1) (attempt + 1)).calls + 1 ≤ r' + 1 + 1
        have := ih (attempt + 1)
        omega

/-- With attempts remaining, at least one call happens. -/
theorem safeQueryLoop_calls_pos (q : Nat → Option String) (base : ℚ) (j : Nat → ℚ) :
    ∀ remaining attempt, 0 < remaining →
      1 ≤ (safeQueryLoop q base j remaining attempt).calls := by
  intro remaining attempt h
  cases remaining with
  | zero => omega
  | succ r =>
    cases hs : attemptSuccess q attempt with
    | some v =>
      rw [safeQueryLoop_succ_eq, hs]
    | none =>
      cases r with
      | zero =>
        rw [safeQueryLoop_succ_eq, hs]
        exact Nat.le_refl 1
      | succ r' =>
        rw [safeQueryLoop_succ_eq, hs]
        show 1 ≤ (safeQueryLoop q base j (r' + 1) (attempt + 1)).calls + 1
        omega

/-- Full characterization of the loop's result and call count: if every
attempt fails the result is `none` after exactly `remaining` calls; if the
first success is at offset `k` the loop returns it after `k + 1` calls. -/
theorem safeQueryLoop_spec (q : Nat → Option String) (base : ℚ) (j : Nat → ℚ) :
    ∀ remaining attempt,
      ((∀ k, k < remaining → attemptSuccess q (attempt + k) = none) →
        (safeQueryLoop q base j remaining attempt).result = none ∧
        (safeQueryLoop q base j remaining attempt).calls = remaining) ∧
      (∀ k, k < remaining → (∀ i, i < k → attemptSuccess q (attempt + i) = none) →
        attemptSuccess q (attempt + k) ≠ none →
        (safeQueryLoop q base j remaining attempt).result = attemptSuccess q (attempt + k) ∧
        (safeQueryLoop q base j remaining attempt).calls = k + 1) := by
  intro remaining
  induction remaining with
  | zero =>
    intro attempt
    exact ⟨fun _ => ⟨rfl, rfl⟩, fun k hk => absurd hk (by omega)⟩
  | succ r ih =>
    intro attempt
    constructor
    · intro hall
      have h0 := hall 0 (by omega)
      simp only [Nat.add_zero] at h0
      rw [safeQueryLoop_succ_eq, h0]
      cases r with
      | zero => exact ⟨rfl, rfl⟩
      | succ r' =>
        have ihr := (ih (attempt + 1)).1
        have hshift : ∀ k, k < r' + 1 → attemptSuccess q (attempt + 1 + k) = none := by
          intro k hk
          have := hall (k + 1) (by omega)
          rwa [show attempt + 1 + k = attempt + (k + 1) by omega]
        have hres := ihr hshift
        refine ⟨?_, ?_⟩
        · show (safeQueryLoop q base j (r' + 1) (attempt + 1)).result = none
          exact hres.1
        · show (safeQueryLoop q base j (r' + 1) (attempt + 1)).calls + 1 = r' + 1 + 1
          omega
    · intro k hk hearlier hsucc
      cases hs : attemptSuccess q attempt with
      | some v =>
        cases k with
        | zero =>
          rw [safeQueryLoop_succ_eq, hs]
          simp only [Nat.add_zero]
          rw [hs]
          exact ⟨rfl, trivial⟩
        | succ k' =>
          have := hearlier 0 (by omega)
          simp only [Nat.add_zero] at this
          rw [this] at hs
          exact absurd hs (by simp)
      | none =>
        cases k with
        | zero =>
          simp only [Nat.add_zero] at hsucc
          exact absurd hs hsucc
        | succ k' =>
          cases r with
          | zero => omega
          | succ r' =>
            have ihr := (ih (attempt + 1)).2 k' (by omega)
              (fun i hi => by
                have := hearlier (i + 1) (by omega)
                rwa [show attempt + 1 + i = attempt + (i + 1) by omega])
              (by rwa [show attempt + 1 + k' = attempt + (k' + 1) by omega])
            rw [safeQueryLoop_succ_eq, hs]
            rw [show attempt + 1 + k' = attempt + (k' + 1) by omega] at ihr
            refine ⟨?_, ?_⟩
            · show (safeQueryLoop q base j (r' + 1) (attempt + 1)).result =
                attemptSuccess q (attempt + (k' + 1))
              exact ihr.1
            · show (safeQueryLoop q base j (r' + 1) (attempt + 1)).calls + 1 = k' + 1 + 1
              omega

/-- The sleep trace of the loop is exactly the backoff formula evaluated at
the indices of the failed non-final attempts. -/
theorem safeQueryLoop_sleeps (q : Nat → Option String) (base : ℚ) (j : Nat → ℚ) :
    ∀ remaining attempt,
      (safeQueryLoop q base j remaining attempt).sleeps =
        (List.range ((safeQueryLoop q base j remaining attempt).calls - 1)).map
          (fun k => base * 2 ^ (attempt + k) + j (attempt + k)) := by
  intro remaining
  induction remaining with
  | zero => intro attempt; rfl
  | succ r ih =>
    intro attempt
    cases hs : attemptSuccess q attempt with
    | some v => rw [safeQueryLoop_succ_eq, hs]; rfl
    | none =>
      rw [safeQueryLoop_succ_eq, hs]
      cases r with
      | zero => rfl
      | succ r' =>
        show (base * 2 ^ attempt + j attempt) ::
            (safeQueryLoop q base j (r' + 1) (attempt + 1)).sleeps =
          (List.range ((safeQueryLoop q base j (r' + 1) (attempt + 1)).calls + 1 - 1)).map
            (fun k => base * 2 ^ (attempt + k) + j (attempt + k))
        have hpos := safeQueryLoop_calls_pos q base j (r' + 1) (attempt + 1) (by omega)
        have hcalls :
            (safeQueryLoop q base j (r' + 1) (attempt + 1)).calls + 1 - 1 =
              ((safeQueryLoop q base j (r' + 1) (attempt + 1)).calls - 1) + 1 := by omega
        rw [hcalls, List.range_succ_eq_map, List.map_cons]
        simp only [Nat.add_zero, List.map_map]
        rw [ih (attempt + 1)]
        congr 1
        apply List.map_congr_left
        intro a _
        simp only [Function.comp_apply]
        rw [show attempt + (a + 1) = attempt + 1 + a by omega]

/-! ## C5 -/

/-- C5 counterexample: a provider reply `"[]"` is non-empty text that the
Normalizer parses successfully (to the empty array), yet the wrapper does not
return it immediately: the parsed value is falsy, so every attempt is
retried and the wrapper returns the failure signal after all 3 attempts. -/
theorem C5_counterexample :
    parse_json_response "[]" = some (.arr []) ∧
    (safe_query_with_retry (fun _ => some "[]") (5 / 4) (fun _ => 0) 3).result = none ∧
    (safe_query_with_retry (fun _ => some "[]") (5 / 4) (fun _ => 0) 3).calls = 3 :=
  ⟨rfl, rfl, rfl⟩

/-- C5 amended: the wrapper's attempt budget defaults to 3 and is clamped to
at least 1; it makes at most `attempts` provider calls; on the first attempt
whose reply is non-empty text parsing to a *truthy* value, that value is
returned immediately with no further calls; and when every attempt fails in
this sense, it returns the failure signal `none` (never an exception) after
exactly `attempts` calls. -/
theorem C5_retry_wrapper_amended (q : Nat → Option String) (base : ℚ) (j : Nat → ℚ)
    (n : Int) (attempts : Nat) :
    (1 ≤ clampedQueryRetries n ∧ clampedQueryRetries 3 = 3) ∧
    (safe_query_with_retry q base j attempts).calls ≤ attempts ∧
    ((∀ k, k < attempts → attemptSuccess q k = none) →
      (safe_query_with_retry q base j attempts).result = none ∧
      (safe_query_with_retry q base j attempts).calls = attempts) ∧
    (∀ k, k < attempts → (∀ i, i < k → attemptSuccess q i = none) →
      attemptSuccess q k ≠ none →
      (safe_query_with_retry q base j attempts).result = attemptSuccess q k ∧
      (safe_query_with_retry q base j attempts).calls = k + 1) := by
  have hspec := safeQueryLoop_spec q base j attempts 0
  simp only [Nat.zero_add] at hspec
  refine ⟨⟨?_, rfl⟩, safeQueryLoop_calls_le q base j attempts 0, hspec.1, hspec.2⟩
  simp only [clampedQueryRetries]
  omega

/-- C5 witness: with a provider that succeeds immediately on a truthy parse,
the amended theorem returns the parsed value after one call. -/
theorem C5_retry_wrapper_amended_witness :
    (0 : Nat) < 3 ∧ attemptSuccess (fun _ => some "[1]") 0 ≠ none ∧
    (safe_query_with_retry (fun _ => some "[1]") (5 / 4) (fun _ => 0) 3).result =
      attemptSuccess (fun _ => some "[1]") 0 ∧
    (safe_query_with_retry (fun _ => some "[1]") (5 / 4) (fun _ => 0) 3).calls = 1 := by
  refine ⟨by omega, by intro h; exact absurd h (by simp [show attemptSuccess (fun _ => some "[1]") 0 = some (.arr [.num "1"]) from rfl]), ?_⟩
  exact (C5_retry_wrapper_amended (fun _ => some "[1]") (5 / 4) (fun _ => 0) 3 3).2.2.2 0
    (by omega) (fun i hi => absurd hi (by omega))
    (by simp [show attemptSuccess (fun _ => some "[1]") 0 = some (.arr [.num "1"]) from rfl])

/-! ## C8 -/

/-- C8: the delay slept before retry attempt `k` (0-indexed) of the query
wrapper is `base * 2 ^ k + jitter k`; with jitter in `[0, 3/4)` each such
delay lies in `[base * 2 ^ k, base * 2 ^ k + 3/4)`; the expected delay
(jitter mean `3/8`) is strictly increasing in `k` for positive bases; and
the provider-level HTTP backoffs `1.5 * 2 ^ k` (ChatGPT) and `1.25 * 2 ^ k`
(Ollama) with jitter in `[0, 1/2)` are likewise bounded and strictly
increasing in expectation. -/
theorem C8_backoff_shape :
    (∀ (q : Nat → Option String) (base : ℚ) (j : Nat → ℚ) (n : Nat),
      (safe_query_with_retry q base j n).sleeps =
        (List.range ((safe_query_with_retry q base j n).calls - 1)).map
          (fun k => base * 2 ^ k + j k)) ∧
    (∀ (q : Nat → Option String) (base : ℚ) (j : Nat → ℚ) (n : Nat),
      (∀ k, 0 ≤ j k ∧ j k < 3 / 4) →
      ∀ d ∈ (safe_query_with_retry q base j n).sleeps,
        ∃ k, d = base * 2 ^ k + j k ∧ base * 2 ^ k ≤ d ∧ d < base * 2 ^ k + 3 / 4) ∧
    (∀ base : ℚ, 0 < base → StrictMono (expectedQueryDelay base)) ∧
    (∀ (k : Nat) (jq : ℚ), 0 ≤ jq → jq < 1 / 2 →
      (3 / 2 * 2 ^ k ≤ chatgptBackoff k jq ∧ chatgptBackoff k jq < 3 / 2 * 2 ^ k + 1 / 2) ∧
      (5 / 4 * 2 ^ k ≤ ollamaBackoff k jq ∧ ollamaBackoff k jq < 5 / 4 * 2 ^ k + 1 / 2)) ∧
    StrictMono chatgptExpectedBackoff ∧ StrictMono ollamaExpectedBackoff := by
  have htrace : ∀ (q : Nat → Option String) (base : ℚ) (j : Nat → ℚ) (n : Nat),
      (safe_query_with_retry q base j n).sleeps =
        (List.range ((safe_query_with_retry q base j n).calls - 1)).map
          (fun k => base * 2 ^ k + j k) := by
    intro q base j n
    have := safeQueryLoop_sleeps q base j n 0
    simpa [safe_query_with_retry] using this
  have hpow : ∀ (c : ℚ) (k : Nat), 0 < c → c * 2 ^ k < c * 2 ^ (k + 1) := by
    intro c k hc
    have h2 : (0 : ℚ) < 2 ^ k := by positivity
    calc c * 2 ^ k < c * 2 ^ k * 2 := by nlinarith
    _ = c * 2 ^ (k + 1) := by ring
  refine ⟨htrace, ?_, ?_, ?_, ?_, ?_⟩
  · intro q base j n hj d hd
    rw [htrace] at hd
    obtain ⟨k, _, hk⟩ := List.mem_map.mp hd
    exact ⟨k, hk.symm, by have := hj k; constructor <;> [linarith [this.1]; linarith [this.2]]⟩
  · intro base hb
    apply strictMono_nat_of_lt_succ
    intro k
    simp only [expectedQueryDelay]
    have := hpow base k hb
    linarith
  · intro k jq h0 h2
    simp only [chatgptBackoff, ollamaBackoff]
    constructor <;> constructor <;> linarith
  · apply strictMono_nat_of_lt_succ
    intro k
    simp only [chatgptExpectedBackoff]
    have := hpow (3 / 2) k (by norm_num)
    linarith
  · apply strictMono_nat_of_lt_succ
    intro k
    simp only [ollamaExpectedBackoff]
    have := hpow (5 / 4) k (by norm_num)
    linarith

/-- C8 witness: the bounds applied at `k = 0`, jitter `1/4`, and a concrete
three-attempt all-failing run whose sleep trace matches the formula. -/
theorem C8_backoff_shape_witness :
    (0 : ℚ) ≤ 1 / 4 ∧
    (3 / 2 * 2 ^ (0 : Nat) ≤ chatgptBackoff 0 (1 / 4) ∧
      chatgptBackoff 0 (1 / 4) < 3 / 2 * 2 ^ (0 : Nat) + 1 / 2) ∧
    (safe_query_with_retry (fun _ => none) (5 / 4) (fun _ => 0) 3).sleeps =
      (List.range ((safe_query_with_retry (fun _ => none) (5 / 4) (fun _ => 0) 3).calls - 1)).map
        (fun k => (5 / 4 : ℚ) * 2 ^ k + 0) :=
  ⟨by norm_num,
   (C8_backoff_shape.2.2.2.1 0 (1 / 4) (by norm_num) (by norm_num)).1,
   C8_backoff_shape.1 (fun _ => none) (5 / 4) (fun _ => 0) 3⟩

/-! ## Reconciliation lemmas -/

/-- Unfolding `append_matches` at an unresolvable name. -/
theorem appendMatches_cons_none {lookup : List (String × Term)} {name : String}
    {rest : List String} {eset : List (Option String)} {target : List Term}
    (h : assocGet lookup (lowerStr (pyStripStr name)) = none) :
    appendMatches (name :: rest) lookup eset target =
      appendMatches rest lookup eset target := by
  show (match assocGet lookup (lowerStr (pyStripStr name)) with
    | none => appendMatches rest lookup eset target
    | some m =>
      if m.slug ∈ eset then appendMatches rest lookup eset target
      else
        let entry : Term := { id := m.id, name := m.name, slug := m.slug, groupId := m.groupId }
        let r := appendMatches rest lookup (m.slug :: eset) (target ++ [entry])
        (true, m.name :: r.2.1, r.2.2.1, r.2.2.2)) = appendMatches rest lookup eset target
  rw [h]

/-- Unfolding `append_matches` at a name resolving to an already-present
slug. -/
theorem appendMatches_cons_mem {lookup : List (String × Term)} {name : String}
    {rest : List String} {eset : List (Option String)} {target : List Term} {m : Term}
    (h : assocGet lookup (lowerStr (pyStripStr name)) = some m) (hmem : m.slug ∈ eset) :
    appendMatches (name :: rest) lookup eset target =
      appendMatches rest lookup eset target := by
  show (match assocGet lookup (lowerStr (pyStripStr name)) with
    | none => appendMatches rest lookup eset target
    | some m =>
      if m.slug ∈ eset then appendMatches rest lookup eset target
      else
        let entry : Term := { id := m.id, name := m.name, slug := m.slug, groupId := m.groupId }
        let r := appendMatches rest lookup (m.slug :: eset) (target ++ [entry])
        (true, m.name :: r.2.1, r.2.2.1, r.2.2.2)) = appendMatches rest lookup eset target
  rw [h]
  exact if_pos hmem

/-- Unfolding `append_matches` at a name resolving to a new slug (the
appended entry is the resolved term itself, by structure eta). -/
theorem appendMatches_cons_new {lookup : List (String × Term)} {name : String}
    {rest : List String} {eset : List (Option String)} {target : List Term} {m : Term}
    (h : assocGet lookup (lowerStr (pyStripStr name)) = some m) (hmem : m.slug ∉ eset) :
    appendMatches (name :: rest) lookup eset target =
      (true, m.name :: (appendMatches rest lookup (m.slug :: eset) (target ++ [m])).2.1,
        (appendMatches rest lookup (m.slug :: eset) (target ++ [m])).2.2.1,
        (appendMatches rest lookup (m.slug :: eset) (target ++ [m])).2.2.2) := by
  show (match assocGet lookup (lowerStr (pyStripStr name)) with
    | none => appendMatches rest lookup eset target
    | some m =>
      if m.slug ∈ eset then appendMatches rest lookup eset target
      else
        let entry : Term := { id := m.id, name := m.name, slug := m.slug, groupId := m.groupId }
        let r := appendMatches rest lookup (m.slug :: eset) (target ++ [entry])
        (true, m.name :: r.2.1, r.2.2.1, r.2.2.2)) = _
  rw [h]
  exact if_neg hmem

/-- `append_matches` preserves slug-distinctness: it only appends terms whose
slug is absent from the membership set, which contains every slug of the
target list. -/
theorem appendMatches_nodup (lookup : List (String × Term)) :
    ∀ (names : List String) (eset : List (Option String)) (target : List Term),
      (target.map Term.slug).Nodup → (∀ t ∈ target, t.slug ∈ eset) →
      (((appendMatches names lookup eset target).2.2.2).map Term.slug).Nodup := by
  intro names
  induction names with
  | nil => intro eset target h1 _; exact h1
  | cons name rest ih =>
    intro eset target h1 h2
    cases hm : assocGet lookup (lowerStr (pyStripStr name)) with
    | none =>
      rw [appendMatches_cons_none hm]
      exact ih eset target h1 h2
    | some m =>
      by_cases hmem : m.slug ∈ eset
      · rw [appendMatches_cons_mem hm hmem]
        exact ih eset target h1 h2
      · rw [appendMatches_cons_new hm hmem]
        apply ih
        · rw [List.map_append, List.nodup_append]
          refine ⟨h1, List.nodup_singleton _, ?_⟩
          intro a ha hb
          simp only [List.map_cons, List.map_nil, List.mem_singleton] at hb
          subst hb
          obtain ⟨t, ht, hts⟩ := List.mem_map.mp ha
          exact hmem (hts ▸ h2 t ht)
        · intro t ht
          rcases List.mem_append.mp ht with h | h
          · exact List.mem_cons_of_mem _ (h2 t h)
          · simp only [List.mem_singleton] at h
            subst h
            exact List.mem_cons_self _ _

/-- The target list never shrinks. -/
theorem appendMatches_len_le (lookup : List (String × Term)) :
    ∀ (names : List String) (eset : List (Option String)) (target : List Term),
      target.length ≤ (appendMatches names lookup eset target).2.2.2.length := by
  intro names
  induction names with
  | nil => intro eset target; exact Nat.le_refl _
  | cons name rest ih =>
    intro eset target
    cases hm : assocGet lookup (lowerStr (pyStripStr name)) with
    | none =>
      rw [appendMatches_cons_none hm]
      exact ih eset target
    | some m =>
      by_cases hmem : m.slug ∈ eset
      · rw [appendMatches_cons_mem hm hmem]
        exact ih eset target
      · rw [appendMatches_cons_new hm hmem]
        show target.length ≤ (appendMatches rest lookup (m.slug :: eset)
          (target ++ [m])).2.2.2.length
        have h1 := ih (m.slug :: eset) (target ++ [m])
        rw [List.length_append] at h1
        simp only [List.length_singleton] at h1
        omega

/-- The `changed` flag of `append_matches` holds exactly when the target
list grew. -/
theorem appendMatches_changed_iff (lookup : List (String × Term)) :
    ∀ (names : List String) (eset : List (Option String)) (target : List Term),
      (appendMatches names lookup eset target).1 = true ↔
        target.length < (appendMatches names lookup eset target).2.2.2.length := by
  intro names
  induction names with
  | nil =>
    intro eset target
    simp [appendMatches]
  | cons name rest ih =>
    intro eset target
    cases hm : assocGet lookup (lowerStr (pyStripStr name)) with
    | none =>
      rw [appendMatches_cons_none hm]
      exact ih eset target
    | some m =>
      by_cases hmem : m.slug ∈ eset
      · rw [appendMatches_cons_mem hm hmem]
        exact ih eset target
      · rw [appendMatches_cons_new hm hmem]
        have hlen := appendMatches_len_le lookup rest (m.slug :: eset) (target ++ [m])
        rw [List.length_append] at hlen
        simp only [List.length_singleton] at hlen
        constructor
        · intro _
          show target.length < (appendMatches rest lookup (m.slug :: eset)
            (target ++ [m])).2.2.2.length
          omega
        · intro _
          rfl

/-- Slug-level membership in the reconciled list: a slug is present exactly
when it was already in the target or it is newly resolvable and not excluded
by the membership set. -/
theorem appendMatches_mem_slug (lookup : List (String × Term)) :
    ∀ (names : List String) (eset : List (Option String)) (target : List Term)
      (s : Option String),
      (∃ t ∈ (appendMatches names lookup eset target).2.2.2, t.slug = s) ↔
        ((∃ t ∈ target, t.slug = s) ∨
          (s ∉ eset ∧ ∃ name ∈ names, ∃ m,
            assocGet lookup (lowerStr (pyStripStr name)) = some m ∧ m.slug = s)) := by
  intro names
  induction names with
  | nil =>
    intro eset target s
    simp [appendMatches]
  | cons name rest ih =>
    intro eset target s
    have hcons : ∀ (P : String → Prop),
        (∃ n ∈ name :: rest, P n) ↔ (P name ∨ ∃ n ∈ rest, P n) := by
      intro P
      constructor
      · rintro ⟨n, hn, hp⟩
        rcases List.mem_cons.mp hn with h | h
        · subst h; exact Or.inl hp
        · exact Or.inr ⟨n, h, hp⟩
      · rintro (hp | ⟨n, hn, hp⟩)
        · exact ⟨name, List.mem_cons_self _ _, hp⟩
        · exact ⟨n, List.mem_cons_of_mem _ hn, hp⟩
    cases hm : assocGet lookup (lowerStr (pyStripStr name)) with
    | none =>
      rw [appendMatches_cons_none hm, ih, hcons]
      have hname : (∃ m, assocGet lookup (lowerStr (pyStripStr name)) = some m ∧ m.slug = s)
          ↔ False := by
        constructor
        · rintro ⟨m, hm2, _⟩
          rw [hm] at hm2
          cases hm2
        · exact False.elim
      rw [hname, false_or]
    | some m =>
      have hname : (∃ m', assocGet lookup (lowerStr (pyStripStr name)) = some m' ∧ m'.slug = s)
          ↔ s = m.slug := by
        rw [hm]
        constructor
        · rintro ⟨m', hm', hs⟩
          cases hm'
          exact hs.symm
        · rintro rfl
          exact ⟨m, rfl, rfl⟩
      by_cases hmem : m.slug ∈ eset
      · rw [appendMatches_cons_mem hm hmem, ih, hcons, hname]
        constructor
        · rintro (h | ⟨hs, hr⟩)
          · exact Or.inl h
          · exact Or.inr ⟨hs, Or.inr hr⟩
        · rintro (h | ⟨hs, (hsm | hr)⟩)
          · exact Or.inl h
          · subst hsm
            exact absurd hmem hs
          · exact Or.inr ⟨hs, hr⟩
      · rw [appendMatches_cons_new hm hmem]
        rw [ih (m.slug :: eset) (target ++ [m]) s, hcons, hname]
        have happ : (∃ t ∈ target ++ [m], t.slug = s) ↔
            ((∃ t ∈ target, t.slug = s) ∨ s = m.slug) := by
          constructor
          · rintro ⟨t, ht, hts⟩
            rcases List.mem_append.mp ht with h | h
            · exact Or.inl ⟨t, h, hts⟩
            · simp only [List.mem_singleton] at h
              subst h
              exact Or.inr hts.symm
          · rintro (⟨t, ht, hts⟩ | h)
            · exact ⟨t, List.mem_append_left _ ht, hts⟩
            · exact ⟨m, List.mem_append_right _ (List.mem_singleton_self _), h.symm⟩
        have hset : s ∉ m.slug :: eset ↔ (s ≠ m.slug ∧ s ∉ eset) := by
          simp [List.mem_cons, not_or]
        rw [happ, hset]
        constructor
        · rintro ((h | hsm) | ⟨⟨hne, hs⟩, hr⟩)
          · exact Or.inl h
          · subst hsm
            exact Or.inr ⟨hmem, Or.inl rfl⟩
          · exact Or.inr ⟨hs, Or.inr hr⟩
        · rintro (h | ⟨hs, (hsm | hr)⟩)
          · exact Or.inl (Or.inl h)
          · exact Or.inl (Or.inr hsm)
          · by_cases hsm2 : s = m.slug
            · exact Or.inl (Or.inr hsm2)
            · exact Or.inr ⟨⟨hsm2, hs⟩, hr⟩

/-! ## Unfolding `update_recipe_metadata` -/

/-- `update_recipe_metadata` with both name iterations resolved, written as
explicit branches on the two `changed` flags and the store status. -/
theorem update_recipe_metadata_eq {replaceExisting : Bool} {recipe : Recipe}
    {categoryNames : JsonVal} {tagNames : List JsonVal}
    {cbn tbn : List (String × Term)} {patchStatus : Nat}
    {catNames tagNameStrs : List String}
    {rc rt : Bool × List (Option String) × List (Option String) × List Term}
    (hcn : namesArg categoryNames = some catNames)
    (htn : tagStrs tagNames = some tagNameStrs)
    (hrc : appendMatches catNames cbn
      (((if replaceExisting then [] else recipe.recipeCategory) : List Term).map Term.slug)
      (if replaceExisting then [] else recipe.recipeCategory) = rc)
    (hrt : appendMatches tagNameStrs tbn
      (((if replaceExisting then [] else recipe.tags) : List Term).map Term.slug)
      (if replaceExisting then [] else recipe.tags) = rt) :
    update_recipe_metadata replaceExisting recipe categoryNames tagNames cbn tbn patchStatus =
      if rc.1 = false ∧ rt.1 = false then some ⟨none, none, false⟩
      else if patchStatus ≠ 200 then
        some ⟨some ⟨if rc.1 then some rc.2.2.2 else none, if rt.1 then some rt.2.2.2 else none⟩,
          none, false⟩
      else
        some ⟨some ⟨if rc.1 then some rc.2.2.2 else none, if rt.1 then some rt.2.2.2 else none⟩,
          some (recipe.slug, ⟨rc.2.2.2.map Term.name, rt.2.2.2.map Term.name⟩), true⟩ := by
  subst hrc
  subst hrt
  unfold update_recipe_metadata
  rw [hcn, htn]

/-! ## C4 -/

/-- C4: reconciliation never produces a duplicate slug.  Whenever
`update_recipe_metadata` completes and issues a PATCH, each list in the
payload has pairwise-distinct slugs, provided the recipe's existing category
and tag lists had distinct slugs; in particular a category suggested twice
contributes a single entry. -/
theorem C4_no_duplicate_slugs (replaceExisting : Bool) (recipe : Recipe)
    (categoryNames : JsonVal) (tagNames : List JsonVal)
    (cbn tbn : List (String × Term)) (patchStatus : Nat) (outcome : UpdateOutcome)
    (hout : update_recipe_metadata replaceExisting recipe categoryNames tagNames cbn tbn
      patchStatus = some outcome)
    (hcat : (recipe.recipeCategory.map Term.slug).Nodup)
    (htag : (recipe.tags.map Term.slug).Nodup) :
    ∀ p, outcome.patch = some p →
      (∀ l, p.recipeCategory = some l → (l.map Term.slug).Nodup) ∧
      (∀ l, p.tags = some l → (l.map Term.slug).Nodup) := by
  have hecat : (((if replaceExisting then [] else recipe.recipeCategory) : List Term).map
      Term.slug).Nodup := by
    cases replaceExisting
    · simpa using hcat
    · simp
  have hetag : (((if replaceExisting then [] else recipe.tags) : List Term).map
      Term.slug).Nodup := by
    cases replaceExisting
    · simpa using htag
    · simp
  cases hcn : namesArg categoryNames with
  | none => unfold update_recipe_metadata at hout; rw [hcn] at hout; cases hout
  | some catNames =>
    cases htn : tagStrs tagNames with
    | none => unfold update_recipe_metadata at hout; rw [hcn, htn] at hout; cases hout
    | some tagNameStrs =>
      rw [update_recipe_metadata_eq hcn htn rfl rfl] at hout
      set ecat := (if replaceExisting then ([] : List Term) else recipe.recipeCategory)
        with hecd
      set etag := (if replaceExisting then ([] : List Term) else recipe.tags) with hetd
      set rcv := appendMatches catNames cbn (ecat.map Term.slug) ecat with hrcd
      set rtv := appendMatches tagNameStrs tbn (etag.map Term.slug) etag with hrtd
      have hc : ((rcv.2.2.2).map Term.slug).Nodup := by
        rw [hrcd]
        exact appendMatches_nodup cbn catNames _ _ hecat
          (fun t ht => List.mem_map_of_mem _ ht)
      have ht2 : ((rtv.2.2.2).map Term.slug).Nodup := by
        rw [hrtd]
        exact appendMatches_nodup tbn tagNameStrs _ _ hetag
          (fun t ht => List.mem_map_of_mem _ ht)
      by_cases hflag : rcv.1 = false ∧ rtv.1 = false
      · rw [if_pos hflag] at hout
        cases hout
        intro p hp
        cases hp
      · rw [if_neg hflag] at hout
        by_cases hstat : patchStatus ≠ 200
        · rw [if_pos hstat] at hout
          cases hout
          intro p hp
          cases hp
          refine ⟨fun l hl => ?_, fun l hl => ?_⟩
          · by_cases h1 : rcv.1 = true
            · rw [if_pos h1] at hl; cases hl; exact hc
            · rw [if_neg h1] at hl; cases hl
          · by_cases h1 : rtv.1 = true
            · rw [if_pos h1] at hl; cases hl; exact ht2
            · rw [if_neg h1] at hl; cases hl
        · rw [if_neg hstat] at hout
          cases hout
          intro p hp
          cases hp
          refine ⟨fun l hl => ?_, fun l hl => ?_⟩
          · by_cases h1 : rcv.1 = true
            · rw [if_pos h1] at hl; cases hl; exact hc
            · rw [if_neg h1] at hl; cases hl
          · by_cases h1 : rtv.1 = true
            · rw [if_pos h1] at hl; cases hl; exact ht2
            · rw [if_neg h1] at hl; cases hl

/-- C4 witness: suggesting `Dinner` twice for a recipe with no categories
yields a single `dinner` entry, and the theorem applies to that payload. -/
theorem C4_no_duplicate_slugs_witness :
    (([] : List Term).map Term.slug).Nodup ∧
    ∀ l, (some [(⟨some "1", some "Dinner", some "dinner", some "g"⟩ : Term)] :
        Option (List Term)) = some l → (l.map Term.slug).Nodup := by
  refine ⟨by simp, ?_⟩
  have h := C4_no_duplicate_slugs false ⟨some "r", [], []⟩
    (.arr [.str "Dinner", .str "Dinner"]) []
    [("dinner", ⟨some "1", some "Dinner", some "dinner", some "g"⟩)] [] 200
    ⟨some ⟨some [⟨some "1", some "Dinner", some "dinner", some "g"⟩], none⟩,
      some (some "r", ⟨[some "Dinner"], []⟩), true⟩
    (by decide) (by simp) (by simp)
  exact fun l hl => (h _ rfl).1 l hl

/-! ## C6 -/

/-- C6: `update_recipe_metadata` issues a PATCH exactly when reconciliation
added at least one category or tag (the reconciled list grew); it writes the
cache exactly when a PATCH was issued and the store answered 200; and on a
non-200 answer the cache is untouched and the call reports failure (no
retry exists in the function). -/
theorem C6_patch_and_cache_gating (replaceExisting : Bool) (recipe : Recipe)
    (categoryNames : JsonVal) (tagNames : List JsonVal)
    (cbn tbn : List (String × Term)) (patchStatus : Nat)
    (catNames tagNameStrs : List String) (outcome : UpdateOutcome)
    (hcn : namesArg categoryNames = some catNames)
    (htn : tagStrs tagNames = some tagNameStrs)
    (hout : update_recipe_metadata replaceExisting recipe categoryNames tagNames cbn tbn
      patchStatus = some outcome) :
    (outcome.patch.isSome = true ↔
      (((if replaceExisting then ([] : List Term) else recipe.recipeCategory)).length <
        (appendMatches catNames cbn
          (((if replaceExisting then [] else recipe.recipeCategory) : List Term).map Term.slug)
          (if replaceExisting then [] else recipe.recipeCategory)).2.2.2.length ∨
       ((if replaceExisting then ([] : List Term) else recipe.tags)).length <
        (appendMatches tagNameStrs tbn
          (((if replaceExisting then [] else recipe.tags) : List Term).map Term.slug)
          (if replaceExisting then [] else recipe.tags)).2.2.2.length)) ∧
    (outcome.cacheWrite.isSome = true ↔ (outcome.patch.isSome = true ∧ patchStatus = 200)) ∧
    (patchStatus ≠ 200 → outcome.cacheWrite = none ∧ outcome.result = false) := by
  rw [update_recipe_metadata_eq hcn htn rfl rfl] at hout
  set ecat := (if replaceExisting then ([] : List Term) else recipe.recipeCategory) with hecd
  set etag := (if replaceExisting then ([] : List Term) else recipe.tags) with hetd
  set rcv := appendMatches catNames cbn (ecat.map Term.slug) ecat with hrcd
  set rtv := appendMatches tagNameStrs tbn (etag.map Term.slug) etag with hrtd
  have hciff : rcv.1 = true ↔ ecat.length < rcv.2.2.2.length := by
    rw [hrcd]
    exact appendMatches_changed_iff cbn catNames _ _
  have htiff : rtv.1 = true ↔ etag.length < rtv.2.2.2.length := by
    rw [hrtd]
    exact appendMatches_changed_iff tbn tagNameStrs _ _
  by_cases hflag : rcv.1 = false ∧ rtv.1 = false
  · rw [if_pos hflag] at hout
    cases hout
    refine ⟨⟨fun h => absurd h (by simp), ?_⟩, by simp, fun _ => ⟨rfl, rfl⟩⟩
    rintro (hlt | hlt)
    · exact (Bool.false_ne_true (hflag.1 ▸ hciff.mpr hlt)).elim
    · exact (Bool.false_ne_true (hflag.2 ▸ htiff.mpr hlt)).elim
  · rw [if_neg hflag] at hout
    have hlt : ecat.length < rcv.2.2.2.length ∨ etag.length < rtv.2.2.2.length := by
      rcases Bool.eq_false_or_eq_true rcv.1 with h | h
      · exact Or.inl (hciff.mp h)
      · rcases Bool.eq_false_or_eq_true rtv.1 with h2 | h2
        · exact Or.inr (htiff.mp h2)
        · exact absurd ⟨h, h2⟩ hflag
    by_cases hstat : patchStatus ≠ 200
    · rw [if_pos hstat] at hout
      cases hout
      refine ⟨⟨fun _ => hlt, fun _ => rfl⟩, ?_, fun _ => ⟨rfl, rfl⟩⟩
      constructor
      · intro h
        exact absurd h (by simp)
      · rintro ⟨_, h200⟩
        exact absurd h200 hstat
    · rw [if_neg hstat] at hout
      cases hout
      have hstat' : patchStatus = 200 := not_ne_iff.mp hstat
      exact ⟨⟨fun _ => hlt, fun _ => rfl⟩, ⟨fun _ => ⟨rfl, hstat'⟩, fun _ => rfl⟩,
        fun h => absurd hstat' h⟩

/-- C6 witness: with one resolving category suggestion and a store answering
500, the theorem's non-200 conjunct yields no cache write and a failure
result. -/
theorem C6_patch_and_cache_gating_witness :
    (500 : Nat) ≠ 200 ∧
    ((⟨some ⟨some [⟨some "1", some "Dinner", some "dinner", some "g"⟩], none⟩,
        none, false⟩ : UpdateOutcome).cacheWrite = none ∧
      (⟨some ⟨some [⟨some "1", some "Dinner", some "dinner", some "g"⟩], none⟩,
        none, false⟩ : UpdateOutcome).result = false) :=
  ⟨by omega,
   (C6_patch_and_cache_gating false ⟨some "r", [], []⟩ (.arr [.str "Dinner"]) []
      [("dinner", ⟨some "1", some "Dinner", some "dinner", some "g"⟩)] [] 500
      ["Dinner"] [] _ rfl rfl (by decide)).2.2 (by omega)⟩

/-! ## C10 -/

/-- C10: in replace mode the update payload is computed from the resolved
suggestions alone.  The outcome does not depend on the recipe's pre-existing
category and tag lists, and whenever at least one suggested name of a field
resolves, that field of the PATCH payload holds exactly the resolved terms:
a slug appears in it precisely when some suggested name resolves to it, so
any pre-existing term not re-suggested is dropped. -/
theorem C10_replace_mode_frame (recipe : Recipe) (catsPrev tagsPrev : List Term)
    (categoryNames : JsonVal) (tagNames : List JsonVal)
    (cbn tbn : List (String × Term)) (patchStatus : Nat) :
    (update_recipe_metadata true { recipe with recipeCategory := catsPrev, tags := tagsPrev }
        categoryNames tagNames cbn tbn patchStatus =
      update_recipe_metadata true recipe categoryNames tagNames cbn tbn patchStatus) ∧
    (∀ (catNames tagNameStrs : List String) (outcome : UpdateOutcome),
      namesArg categoryNames = some catNames →
      tagStrs tagNames = some tagNameStrs →
      update_recipe_metadata true recipe categoryNames tagNames cbn tbn patchStatus =
        some outcome →
      ((∃ name ∈ catNames, (assocGet cbn (lowerStr (pyStripStr name))).isSome = true) →
        ∃ p l, outcome.patch = some p ∧ p.recipeCategory = some l ∧
          ∀ s, (∃ t ∈ l, t.slug = s) ↔
            (∃ name ∈ catNames, ∃ m,
              assocGet cbn (lowerStr (pyStripStr name)) = some m ∧ m.slug = s)) ∧
      ((∃ name ∈ tagNameStrs, (assocGet tbn (lowerStr (pyStripStr name))).isSome = true) →
        ∃ p l, outcome.patch = some p ∧ p.tags = some l ∧
          ∀ s, (∃ t ∈ l, t.slug = s) ↔
            (∃ name ∈ tagNameStrs, ∃ m,
              assocGet tbn (lowerStr (pyStripStr name)) = some m ∧ m.slug = s))) := by
  constructor
  · rfl
  · intro catNames tagNameStrs outcome hcn htn hout
    rw [update_recipe_metadata_eq hcn htn rfl rfl] at hout
    have hkc : appendMatches catNames cbn
        (((if true then [] else recipe.recipeCategory) : List Term).map Term.slug)
        (if true then [] else recipe.recipeCategory) = appendMatches catNames cbn [] [] := rfl
    have hkt : appendMatches tagNameStrs tbn
        (((if true then [] else recipe.tags) : List Term).map Term.slug)
        (if true then [] else recipe.tags) = appendMatches tagNameStrs tbn [] [] := rfl
    rw [hkc, hkt] at hout
    set rcv := appendMatches catNames cbn ([] : List (Option String)) ([] : List Term)
      with hrcd
    set rtv := appendMatches tagNameStrs tbn ([] : List (Option String)) ([] : List Term)
      with hrtd
    have hmemc : ∀ s, (∃ t ∈ rcv.2.2.2, t.slug = s) ↔
        (∃ name ∈ catNames, ∃ m,
          assocGet cbn (lowerStr (pyStripStr name)) = some m ∧ m.slug = s) := by
      intro s
      rw [hrcd, appendMatches_mem_slug cbn catNames ([] : List (Option String)) ([] : List Term) s]
      simp
    have hmemt : ∀ s, (∃ t ∈ rtv.2.2.2, t.slug = s) ↔
        (∃ name ∈ tagNameStrs, ∃ m,
          assocGet tbn (lowerStr (pyStripStr name)) = some m ∧ m.slug = s) := by
      intro s
      rw [hrtd, appendMatches_mem_slug tbn tagNameStrs ([] : List (Option String)) ([] : List Term) s]
      simp
    have hciff : rcv.1 = true ↔ (0 : Nat) < rcv.2.2.2.length := by
      rw [hrcd]
      exact appendMatches_changed_iff cbn catNames _ _
    have htiff : rtv.1 = true ↔ (0 : Nat) < rtv.2.2.2.length := by
      rw [hrtd]
      exact appendMatches_changed_iff tbn tagNameStrs _ _
    constructor
    · intro hres
      obtain ⟨n, hn, hsome⟩ := hres
      obtain ⟨m, hm⟩ := Option.isSome_iff_exists.mp hsome
      have hnonempty : (0 : Nat) < rcv.2.2.2.length := by
        obtain ⟨t, ht, _⟩ := (hmemc m.slug).mpr ⟨n, hn, m, hm, rfl⟩
        exact List.length_pos_of_mem ht
      have hchanged : rcv.1 = true := hciff.mpr hnonempty
      have hflag : ¬(rcv.1 = false ∧ rtv.1 = false) := by
        rintro ⟨h1, _⟩
        rw [hchanged] at h1
        cases h1
      rw [if_neg hflag] at hout
      by_cases hstat : patchStatus ≠ 200
      · rw [if_pos hstat] at hout
        cases hout
        refine ⟨_, rcv.2.2.2, rfl, ?_, hmemc⟩
        show (if rcv.1 = true then some rcv.2.2.2 else none) = some rcv.2.2.2
        rw [if_pos hchanged]
      · rw [if_neg hstat] at hout
        cases hout
        refine ⟨_, rcv.2.2.2, rfl, ?_, hmemc⟩
        show (if rcv.1 = true then some rcv.2.2.2 else none) = some rcv.2.2.2
        rw [if_pos hchanged]
    · intro hres
      obtain ⟨n, hn, hsome⟩ := hres
      obtain ⟨m, hm⟩ := Option.isSome_iff_exists.mp hsome
      have hnonempty : (0 : Nat) < rtv.2.2.2.length := by
        obtain ⟨t, ht, _⟩ := (hmemt m.slug).mpr ⟨n, hn, m, hm, rfl⟩
        exact List.length_pos_of_mem ht
      have hchanged : rtv.1 = true := htiff.mpr hnonempty
      have hflag : ¬(rcv.1 = false ∧ rtv.1 = false) := by
        rintro ⟨_, h2⟩
        rw [hchanged] at h2
        cases h2
      rw [if_neg hflag] at hout
      by_cases hstat : patchStatus ≠ 200
      · rw [if_pos hstat] at hout
        cases hout
        refine ⟨_, rtv.2.2.2, rfl, ?_, hmemt⟩
        show (if rtv.1 = true then some rtv.2.2.2 else none) = some rtv.2.2.2
        rw [if_pos hchanged]
      · rw [if_neg hstat] at hout
        cases hout
        refine ⟨_, rtv.2.2.2, rfl, ?_, hmemt⟩
        show (if rtv.1 = true then some rtv.2.2.2 else none) = some rtv.2.2.2
        rw [if_pos hchanged]

/-- C10 witness: a recipe whose existing category is dropped in replace mode
because only `Dinner` is re-suggested; the theorem applies with its
hypotheses discharged concretely. -/
theorem C10_replace_mode_frame_witness :
    namesArg (.arr [.str "Dinner"]) = some ["Dinner"] ∧
    (∃ p l, (⟨some ⟨some [⟨some "1", some "Dinner", some "dinner", some "g"⟩], none⟩,
        some (some "r", ⟨[some "Dinner"], []⟩), true⟩ : UpdateOutcome).patch = some p ∧
      p.recipeCategory = some l ∧
      ∀ s, (∃ t ∈ l, t.slug = s) ↔
        (∃ name ∈ ["Dinner"], ∃ m,
          assocGet [("dinner", (⟨some "1", some "Dinner", some "dinner", some "g"⟩ : Term))]
            (lowerStr (pyStripStr name)) = some m ∧ m.slug = s)) := by
  refine ⟨rfl, ?_⟩
  exact ((C10_replace_mode_frame
    ⟨some "r", [⟨some "9", some "Old", some "old", some "g"⟩], []⟩ [] []
    (.arr [.str "Dinner"]) []
    [("dinner", ⟨some "1", some "Dinner", some "dinner", some "g"⟩)] [] 200).2
    ["Dinner"] [] _ rfl rfl (by decide)).1
    ⟨"Dinner", by simp, by decide⟩

/-! ## Sorting and deduplication lemmas for the tag vocabulary -/

theorem insertSorted_length (s : String) :
    ∀ l, (insertSorted s l).length = l.length + 1 := by
  intro l
  induction l with
  | nil => rfl
  | cons x xs ih =>
    show (if s ≤ x then s :: x :: xs else x :: insertSorted s xs).length = (x :: xs).length + 1
    by_cases h : s ≤ x
    · rw [if_pos h]
      simp
    · rw [if_neg h]
      simp only [List.length_cons, ih]

theorem sortStrings_length : ∀ l, (sortStrings l).length = l.length := by
  intro l
  induction l with
  | nil => rfl
  | cons x xs ih =>
    show (insertSorted x (sortStrings xs)).length = xs.length + 1
    rw [insertSorted_length, ih]

theorem dedupFirst_ne_nil : ∀ l : List String, l ≠ [] → dedupFirst l ≠ [] := by
  intro l h
  cases l with
  | nil => exact absurd rfl h
  | cons x xs =>
    show x :: dedupFirstF xs.length (xs.filter (fun y => !(y == x))) ≠ []
    exact List.cons_ne_nil _ _

theorem sortedUnique_ne_nil {l : List String} (h : l ≠ []) : sortedUnique l ≠ [] := by
  intro h2
  have hlen := congrArg List.length h2
  rw [show sortedUnique l = sortStrings (dedupFirst l) from rfl, sortStrings_length] at hlen
  exact dedupFirst_ne_nil l h (List.length_eq_zero.mp hlen)

/-! ## C7 -/

/-- C7 counterexample: the claim fails as stated.  A non-empty list of known
tags whose only name is the empty string passes through both the filter and
the fallback, and the vocabulary handed to the prompt is empty. -/
theorem C7_counterexample :
    ([⟨some (some "")⟩] : List TagInfo) ≠ [] ∧
    runTagNames 24 0 [⟨some (some "")⟩] [] = some [] :=
  ⟨List.cons_ne_nil _ _, rfl⟩

/-- C7 amended: for a list of known tags none of which carries a `null`
name, at least one of which has a non-empty stripped name, the tag
vocabulary computed for prompting is non-empty: either the filter's
candidate list is used, or the fallback full name list, which retains the
good name. -/
theorem C7_tag_vocabulary_amended (maxLen minUsage : Int) (tags : List TagInfo)
    (recipes : List Recipe)
    (hnonull : ∀ t ∈ tags, t.name ≠ some none)
    (hgood : ∃ t ∈ tags, tagInfoNameOrEmpty t ≠ "") :
    ∃ l, runTagNames maxLen minUsage tags recipes = some l ∧ l ≠ [] := by
  set f := filter_tag_candidates maxLen minUsage tags recipes with hf
  have hrun : runTagNames maxLen minUsage tags recipes =
      if f.isEmpty then
        (if tags.any (fun t => t.name == some none) then none
         else some (sortedUnique
           ((tags.map (fun t => pyStripStr ((t.name.getD (some "")).getD ""))).filter
             (fun n => !(n == "")))))
      else some f := rfl
  by_cases hfil : f.isEmpty
  · rw [hrun, if_pos hfil]
    have hany : tags.any (fun t => t.name == some none) = false := by
      rw [List.any_eq_false]
      intro t htm
      simp only [beq_iff_eq]
      exact hnonull t htm
    rw [if_neg (by rw [hany]; exact Bool.false_ne_true)]
    refine ⟨_, rfl, ?_⟩
    apply sortedUnique_ne_nil
    obtain ⟨t, ht, hne⟩ := hgood
    have heq : pyStripStr ((t.name.getD (some "")).getD "") = tagInfoNameOrEmpty t := by
      cases hn : t.name with
      | none =>
        exact absurd (by simp [tagInfoNameOrEmpty, hn]) hne
      | some inner =>
        cases inner with
        | none => exact absurd hn (hnonull t ht)
        | some s => simp [tagInfoNameOrEmpty, hn]
    have hmem : tagInfoNameOrEmpty t ∈
        tags.map (fun t => pyStripStr ((t.name.getD (some "")).getD "")) := by
      rw [← heq]
      exact List.mem_map_of_mem _ ht
    exact List.ne_nil_of_mem (List.mem_filter.mpr ⟨hmem, by simp [hne]⟩)
  · rw [hrun, if_neg hfil]
    refine ⟨f, rfl, ?_⟩
    intro h
    exact hfil (by rw [h]; rfl)

/-- C7 witness: one well-named tag gives a non-empty vocabulary. -/
theorem C7_tag_vocabulary_amended_witness :
    (∀ t ∈ ([⟨some (some "Weeknight")⟩] : List TagInfo), t.name ≠ some none) ∧
    ∃ l, runTagNames 24 0 [⟨some (some "Weeknight")⟩] [] = some l ∧ l ≠ [] :=
  ⟨by decide,
   C7_tag_vocabulary_amended 24 0 [⟨some (some "Weeknight")⟩] [] (by decide)
     ⟨⟨some (some "Weeknight")⟩, List.mem_singleton_self _, by decide⟩⟩

/-! ## Dict and batch-processor lemmas -/

/-- Unfolding dict lookup at a head pair. -/
theorem assocGet_cons {α : Type} (k' : String) (v' : α) (rest : List (String × α))
    (s : String) :
    assocGet ((k', v') :: rest) s = if k' = s then some v' else assocGet rest s := rfl

/-- Lookup after a dict insert. -/
theorem assocGet_insert {α : Type} (acc : List (String × α)) (k : String) (v : α)
    (s : String) :
    assocGet (assocInsert acc k v) s = if k = s then some v else assocGet acc s := by
  induction acc with
  | nil =>
    show assocGet [(k, v)] s = if k = s then some v else assocGet [] s
    rw [assocGet_cons]
  | cons p rest ih =>
    obtain ⟨k', v'⟩ := p
    show assocGet (if k' = k then (k, v) :: rest else (k', v') :: assocInsert rest k v) s = _
    by_cases h1 : k' = k
    · rw [if_pos h1]
      subst h1
      rw [assocGet_cons, assocGet_cons]
      by_cases h2 : k' = s <;> simp [h2]
    · rw [if_neg h1, assocGet_cons, assocGet_cons, ih]
      split_ifs <;>
        first
          | rfl
          | exact absurd ((‹k' = s› : k' = s).trans (‹k = s› : k = s).symm) h1

/-- A key found in the `recipes_by_slug` dict comes from a recipe of the
batch with that truthy slug (or was already in the accumulator). -/
theorem foldl_rbsStep_key : ∀ (batch : List Recipe) (acc : List (String × Recipe))
    (s : String), (assocGet (List.foldl rbsStep acc batch) s).isSome = true →
    (assocGet acc s).isSome = true ∨ ∃ r ∈ batch, truthySlug r = some s := by
  intro batch
  induction batch with
  | nil => intro acc s h; exact Or.inl h
  | cons r rest ih =>
    intro acc s h
    have h2 := ih (rbsStep acc r) s h
    rcases h2 with h2 | ⟨r', hr', hs⟩
    · cases ht : truthySlug r with
      | none =>
        have hstep : rbsStep acc r = acc := by
          unfold rbsStep
          rw [ht]
        rw [hstep] at h2
        exact Or.inl h2
      | some s' =>
        have hstep : rbsStep acc r = assocInsert acc s' r := by
          unfold rbsStep
          rw [ht]
        rw [hstep, assocGet_insert] at h2
        by_cases he : s' = s
        · exact Or.inr ⟨r, List.mem_cons_self _ _, by rw [ht, he]⟩
        · rw [if_neg he] at h2
          exact Or.inl h2
    · exact Or.inr ⟨r', List.mem_cons_of_mem _ hr', hs⟩

/-- Unfolding the suggestion loop at a dict entry. -/
theorem processEntries_obj_eq (fields : List (String × JsonVal)) (rest : List JsonVal)
    (rbs : List (String × Recipe)) :
    processEntries (.obj fields :: rest) rbs =
      (match getStrippedStrField fields "slug" with
       | none => (([] : List UpdateCall), true)
       | some slug =>
         if slug == "" then processEntries rest rbs
         else
           match assocGet rbs slug with
           | none => processEntries rest rbs
           | some _ =>
             if updateArgsOk (entryCategoriesVal fields) (coerceTags fields) then
               ((⟨slug, entryCategoriesVal fields, coerceTags fields⟩ : UpdateCall) ::
                 (processEntries rest rbs).1, (processEntries rest rbs).2)
             else ([⟨slug, entryCategoriesVal fields, coerceTags fields⟩], true)) := rfl

/-- Every update call recorded by the suggestion loop targets a slug present
in the `recipes_by_slug` dict. -/
theorem processEntries_slug_known : ∀ (entries : List JsonVal)
    (rbs : List (String × Recipe)) (u : UpdateCall),
    u ∈ (processEntries entries rbs).1 → (assocGet rbs u.slug).isSome = true := by
  intro entries
  induction entries with
  | nil => intro rbs u h; exact absurd h (List.not_mem_nil u)
  | cons e rest ih =>
    intro rbs u h
    cases e with
    | obj fields =>
      rw [processEntries_obj_eq] at h
      cases hs : getStrippedStrField fields "slug" with
      | none =>
        rw [hs] at h
        exact absurd h (List.not_mem_nil u)
      | some slug =>
        rw [hs] at h
        replace h : u ∈ (if (slug == "") = true then processEntries rest rbs
          else match assocGet rbs slug with
            | none => processEntries rest rbs
            | some _ =>
              if updateArgsOk (entryCategoriesVal fields) (coerceTags fields) then
                ((⟨slug, entryCategoriesVal fields, coerceTags fields⟩ : UpdateCall) ::
                  (processEntries rest rbs).1, (processEntries rest rbs).2)
              else ([⟨slug, entryCategoriesVal fields, coerceTags fields⟩], true)).1 := h
        by_cases he : (slug == "") = true
        · rw [if_pos he] at h
          exact ih rbs u h
        · rw [if_neg he] at h
          cases hg : assocGet rbs slug with
          | none =>
            rw [hg] at h
            exact ih rbs u h
          | some r =>
            rw [hg] at h
            replace h : u ∈ (if updateArgsOk (entryCategoriesVal fields) (coerceTags fields) then
                ((⟨slug, entryCategoriesVal fields, coerceTags fields⟩ : UpdateCall) ::
                  (processEntries rest rbs).1, (processEntries rest rbs).2)
              else ([⟨slug, entryCategoriesVal fields, coerceTags fields⟩], true)).1 := h
            by_cases hok : updateArgsOk (entryCategoriesVal fields) (coerceTags fields) = true
            · rw [if_pos hok] at h
              rcases List.mem_cons.mp h with h | h
              · subst h
                rw [hg]
                rfl
              · exact ih rbs u h
            · rw [if_neg hok] at h
              rcases List.mem_cons.mp h with h | h
              · subst h
                rw [hg]
                rfl
              · exact absurd h (List.not_mem_nil u)
    | null => exact absurd h (List.not_mem_nil u)
    | bool b => exact absurd h (List.not_mem_nil u)
    | num lex => exact absurd h (List.not_mem_nil u)
    | str s => exact absurd h (List.not_mem_nil u)
    | arr l => exact absurd h (List.not_mem_nil u)

/-- A recipe that is not flagged as cached and has truthy slug `s` proves
`s` is not a cache key. -/
theorem not_in_cache_of_truthySlug {cacheKeys : List String} {r : Recipe} {s : String}
    (h1 : slugInCache cacheKeys r = false) (h2 : truthySlug r = some s) :
    s ∉ cacheKeys := by
  unfold truthySlug at h2
  cases hr : r.slug with
  | none =>
    rw [hr] at h2
    cases h2
  | some s' =>
    rw [hr] at h2
    replace h2 : (if (s' == "") = true then none else some s') = some s := h2
    by_cases he : (s' == "") = true
    · rw [if_pos he] at h2
      cases h2
    · rw [if_neg he] at h2
      injection h2 with hss
      unfold slugInCache at h1
      rw [hr, hss] at h1
      replace h1 : cacheKeys.contains s = false := h1
      intro hmem
      rw [show cacheKeys.contains s = List.elem s cacheKeys from rfl,
        List.elem_iff.mpr hmem] at h1
      cases h1

/-- `process_batch` written as explicit branches (cached count and remaining
batch resolved). -/
theorem process_batch_eq (replaceExisting : Bool) (cacheKeys : List String)
    (parsed tagOracle : Option JsonVal) (batch : List Recipe)
    (cachedCount : Nat) (remaining : List Recipe)
    (hcc : (if replaceExisting then 0
      else (batch.filter (slugInCache cacheKeys)).length) = cachedCount)
    (hrem : (if replaceExisting then batch
      else batch.filter (fun r => !(slugInCache cacheKeys r))) = remaining) :
    process_batch replaceExisting cacheKeys parsed tagOracle batch =
      if batch.isEmpty then ⟨false, [], 0, false⟩
      else if remaining.isEmpty then ⟨false, [], cachedCount, false⟩
      else if !(pyTruthyOpt parsed) then ⟨true, [], cachedCount + remaining.length, false⟩
      else
        match parsed with
        | some (.arr entries) =>
          (match ensure_tags_for_entries entries (buildRecipesBySlug remaining) tagOracle with
           | none => ⟨true, [], cachedCount, true⟩
           | some entries2 =>
             if (processEntries entries2 (buildRecipesBySlug remaining)).2 then
               ⟨true, (processEntries entries2 (buildRecipesBySlug remaining)).1,
                 cachedCount, true⟩
             else
               ⟨true, (processEntries entries2 (buildRecipesBySlug remaining)).1,
                 cachedCount + (buildRecipesBySlug remaining).length, false⟩)
        | _ => ⟨true, [], cachedCount + remaining.length, false⟩ := by
  subst hcc
  subst hrem
  rfl

/-! ## C1 -/

/-- C1: in non-replace mode, recipes whose slug is cached are removed before
any provider query and never receive an update call: every recorded
`update_recipe_metadata` invocation targets a non-cached slug, and a batch
that is entirely cached issues neither a query nor any update.  Hence a
second run over an unchanged cache issues zero update calls for cached
recipes. -/
theorem C1_cache_skip (cacheKeys : List String) (parsed tagOracle : Option JsonVal)
    (batch : List Recipe) :
    (∀ u ∈ (process_batch false cacheKeys parsed tagOracle batch).updates,
      u.slug ∉ cacheKeys) ∧
    ((∀ r ∈ batch, slugInCache cacheKeys r = true) →
      (process_batch false cacheKeys parsed tagOracle batch).queried = false ∧
      (process_batch false cacheKeys parsed tagOracle batch).updates = []) := by
  rw [process_batch_eq false cacheKeys parsed tagOracle batch
    ((batch.filter (slugInCache cacheKeys)).length)
    (batch.filter (fun r => !(slugInCache cacheKeys r))) rfl rfl]
  constructor
  · intro u hu
    by_cases hb : batch.isEmpty
    · rw [if_pos hb] at hu
      exact absurd hu (List.not_mem_nil u)
    · rw [if_neg hb] at hu
      by_cases hre : (batch.filter (fun r => !(slugInCache cacheKeys r))).isEmpty
      · rw [if_pos hre] at hu
        exact absurd hu (List.not_mem_nil u)
      · rw [if_neg hre] at hu
        by_cases hp : (!(pyTruthyOpt parsed)) = true
        · rw [if_pos hp] at hu
          exact absurd hu (List.not_mem_nil u)
        · rw [if_neg hp] at hu
          have hknown : (assocGet
              (buildRecipesBySlug (batch.filter (fun r => !(slugInCache cacheKeys r))))
              u.slug).isSome = true := by
            cases parsed with
            | none => exact absurd hu (List.not_mem_nil u)
            | some v =>
              cases v with
              | arr entries =>
                replace hu : u ∈ ((match ensure_tags_for_entries entries
                    (buildRecipesBySlug (batch.filter (fun r => !(slugInCache cacheKeys r))))
                    tagOracle with
                  | none => (⟨true, [], (batch.filter (slugInCache cacheKeys)).length, true⟩ :
                      BatchOutcome)
                  | some entries2 =>
                    if (processEntries entries2 (buildRecipesBySlug
                        (batch.filter (fun r => !(slugInCache cacheKeys r))))).2 then
                      ⟨true, (processEntries entries2 (buildRecipesBySlug
                          (batch.filter (fun r => !(slugInCache cacheKeys r))))).1,
                        (batch.filter (slugInCache cacheKeys)).length, true⟩
                    else
                      ⟨true, (processEntries entries2 (buildRecipesBySlug
                          (batch.filter (fun r => !(slugInCache cacheKeys r))))).1,
                        (batch.filter (slugInCache cacheKeys)).length +
                          (buildRecipesBySlug
                            (batch.filter (fun r => !(slugInCache cacheKeys r)))).length,
                        false⟩)).updates := hu
                cases hens : ensure_tags_for_entries entries
                    (buildRecipesBySlug (batch.filter (fun r => !(slugInCache cacheKeys r))))
                    tagOracle with
                | none =>
                  rw [hens] at hu
                  exact absurd hu (List.not_mem_nil u)
                | some entries2 =>
                  rw [hens] at hu
                  replace hu : u ∈ ((if (processEntries entries2 (buildRecipesBySlug
                      (batch.filter (fun r => !(slugInCache cacheKeys r))))).2 then
                      (⟨true, (processEntries entries2 (buildRecipesBySlug
                          (batch.filter (fun r => !(slugInCache cacheKeys r))))).1,
                        (batch.filter (slugInCache cacheKeys)).length, true⟩ : BatchOutcome)
                    else
                      ⟨true, (processEntries entries2 (buildRecipesBySlug
                          (batch.filter (fun r => !(slugInCache cacheKeys r))))).1,
                        (batch.filter (slugInCache cacheKeys)).length +
                          (buildRecipesBySlug
                            (batch.filter (fun r => !(slugInCache cacheKeys r)))).length,
                        false⟩)).updates := hu
                  by_cases hcr : (processEntries entries2
                      (buildRecipesBySlug
                        (batch.filter (fun r => !(slugInCache cacheKeys r))))).2 = true
                  · rw [if_pos hcr] at hu
                    exact processEntries_slug_known entries2 _ u hu
                  · rw [if_neg hcr] at hu
                    exact processEntries_slug_known entries2 _ u hu
              | null => exact absurd hu (List.not_mem_nil u)
              | bool b => exact absurd hu (List.not_mem_nil u)
              | num lex => exact absurd hu (List.not_mem_nil u)
              | str s => exact absurd hu (List.not_mem_nil u)
              | obj fields => exact absurd hu (List.not_mem_nil u)
          rcases foldl_rbsStep_key _ [] u.slug hknown with hnil | ⟨r', hr', hs⟩
          · cases hnil
          · have hfil := (List.mem_filter.mp hr').2
            have hfalse : slugInCache cacheKeys r' = false := by
              cases hsl : slugInCache cacheKeys r'
              · rfl
              · rw [hsl] at hfil
                cases hfil
            exact not_in_cache_of_truthySlug hfalse hs
  · intro hall
    have hre : batch.filter (fun r => !(slugInCache cacheKeys r)) = [] := by
      rw [List.filter_eq_nil_iff]
      intro r hr
      rw [hall r hr]
      simp
    by_cases hb : batch.isEmpty
    · rw [if_pos hb]
      exact ⟨rfl, rfl⟩
    · rw [if_neg hb, if_pos (by rw [hre]; rfl)]
      exact ⟨rfl, rfl⟩

/-- C1 witness: a batch whose only recipe is cached issues no query and no
updates. -/
theorem C1_cache_skip_witness :
    (∀ r ∈ [(⟨some "a", [], []⟩ : Recipe)], slugInCache ["a"] r = true) ∧
    (process_batch false ["a"] none none [⟨some "a", [], []⟩]).queried = false ∧
    (process_batch false ["a"] none none [⟨some "a", [], []⟩]).updates = [] :=
  ⟨by decide, (C1_cache_skip ["a"] none none [⟨some "a", [], []⟩]).2 (by decide)⟩

/-! ## C3: progress accounting -/

/-- A filter and its complementary filter partition the length of a list. -/
theorem filter_partition_length {α : Type} (p : α → Bool) (l : List α) :
    (l.filter p).length + (l.filter (fun a => !p a)).length = l.length := by
  induction l with
  | nil => rfl
  | cons a t ih =>
    cases hp : p a with
    | false =>
      simp only [List.filter_cons, hp, Bool.not_false, if_pos, List.length_cons,
        Bool.false_eq_true, if_false]
      omega
    | true =>
      simp only [List.filter_cons, hp, Bool.not_true, if_pos, List.length_cons,
        Bool.false_eq_true, if_false]
      omega

/-- Inserting into a dict grows it by at most one entry. -/
theorem assocInsert_length_le {α : Type} : ∀ (acc : List (String × α)) (k : String) (v : α),
    (assocInsert acc k v).length ≤ acc.length + 1 := by
  intro acc
  induction acc with
  | nil => intro k v; exact Nat.le_refl 1
  | cons p rest ih =>
    intro k v
    obtain ⟨k', v'⟩ := p
    show (if k' = k then (k, v) :: rest else (k', v') :: assocInsert rest k v).length ≤
      rest.length + 1 + 1
    by_cases h : k' = k
    · rw [if_pos h]
      show rest.length + 1 ≤ rest.length + 1 + 1
      omega
    · rw [if_neg h]
      show (assocInsert rest k v).length + 1 ≤ rest.length + 1 + 1
      have := ih k v
      omega

/-- Inserting a fresh key grows the dict by exactly one entry. -/
theorem assocInsert_length_of_get_none {α : Type} :
    ∀ (acc : List (String × α)) (k : String) (v : α),
    assocGet acc k = none → (assocInsert acc k v).length = acc.length + 1 := by
  intro acc
  induction acc with
  | nil => intro k v _; rfl
  | cons p rest ih =>
    intro k v h
    obtain ⟨k', v'⟩ := p
    rw [assocGet_cons] at h
    by_cases he : k' = k
    · rw [if_pos he] at h
      cases h
    · rw [if_neg he] at h
      show (if k' = k then (k, v) :: rest else (k', v') :: assocInsert rest k v).length =
        rest.length + 1 + 1
      rw [if_neg he]
      show (assocInsert rest k v).length + 1 = rest.length + 1 + 1
      rw [ih k v h]

/-- The `recipes_by_slug` fold grows the accumulator by at most one entry
per recipe. -/
theorem foldl_rbsStep_length_le : ∀ (l : List Recipe) (acc : List (String × Recipe)),
    (List.foldl rbsStep acc l).length ≤ acc.length + l.length := by
  intro l
  induction l with
  | nil => intro acc; exact Nat.le_refl acc.length
  | cons r t ih =>
    intro acc
    have h1 : (rbsStep acc r).length ≤ acc.length + 1 := by
      unfold rbsStep
      cases ht : truthySlug r with
      | none => exact Nat.le_succ acc.length
      | some s => exact assocInsert_length_le acc s r
    have h2 := ih (rbsStep acc r)
    show (List.foldl rbsStep (rbsStep acc r) t).length ≤ acc.length + (t.length + 1)
    omega

/-- With all slugs truthy, pairwise distinct, and fresh for the accumulator,
the `recipes_by_slug` fold grows the accumulator by exactly one entry per
recipe. -/
theorem foldl_rbsStep_length_eq : ∀ (l : List Recipe) (acc : List (String × Recipe)),
    (∀ r ∈ l, (truthySlug r).isSome = true) →
    (l.filterMap truthySlug).Nodup →
    (∀ s ∈ l.filterMap truthySlug, assocGet acc s = none) →
    (List.foldl rbsStep acc l).length = acc.length + l.length := by
  intro l
  induction l with
  | nil => intro acc _ _ _; rfl
  | cons r t ih =>
    intro acc h1 h2 h3
    obtain ⟨s, hs⟩ := Option.isSome_iff_exists.mp (h1 r (List.mem_cons_self r t))
    have hfm : (r :: t).filterMap truthySlug = s :: t.filterMap truthySlug := by
      rw [List.filterMap_cons, hs]
    rw [hfm] at h2 h3
    have hnd := List.nodup_cons.mp h2
    have hstep : rbsStep acc r = assocInsert acc s r := by
      unfold rbsStep
      rw [hs]
    have hlen1 : (assocInsert acc s r).length = acc.length + 1 :=
      assocInsert_length_of_get_none acc s r (h3 s (List.mem_cons_self s _))
    have hrec := ih (assocInsert acc s r)
      (fun r' hr' => h1 r' (List.mem_cons_of_mem r hr'))
      hnd.2
      (by
        intro s' hs'
        rw [assocGet_insert]
        rw [if_neg (fun heq => hnd.1 (by rw [heq]; exact hs'))]
        exact h3 s' (List.mem_cons_of_mem s hs'))
    show (List.foldl rbsStep (rbsStep acc r) t).length = acc.length + (t.length + 1)
    rw [hstep, hrec, hlen1]
    omega

/-- An empty batch returns immediately with zero progress. -/
theorem process_batch_empty_eq (replaceExisting : Bool) (cacheKeys : List String)
    (parsed tagOracle : Option JsonVal) (batch : List Recipe)
    (hb : batch.isEmpty = true) :
    process_batch replaceExisting cacheKeys parsed tagOracle batch =
      ⟨false, [], 0, false⟩ := by
  rw [process_batch_eq replaceExisting cacheKeys parsed tagOracle batch _ _ rfl rfl,
    if_pos hb]

/-- A batch whose remaining list is empty (all recipes cached) returns
without a query, counting only the cached recipes. -/
theorem process_batch_allCached_eq (replaceExisting : Bool) (cacheKeys : List String)
    (parsed tagOracle : Option JsonVal) (batch : List Recipe)
    (cachedCount : Nat) (remaining : List Recipe)
    (hcc : (if replaceExisting then 0
      else (batch.filter (slugInCache cacheKeys)).length) = cachedCount)
    (hrem : (if replaceExisting then batch
      else batch.filter (fun r => !(slugInCache cacheKeys r))) = remaining)
    (hb : batch.isEmpty = false) (hre : remaining.isEmpty = true) :
    process_batch replaceExisting cacheKeys parsed tagOracle batch =
      ⟨false, [], cachedCount, false⟩ := by
  rw [process_batch_eq replaceExisting cacheKeys parsed tagOracle batch cachedCount
      remaining hcc hrem,
    if_neg (by rw [hb]; exact Bool.false_ne_true), if_pos hre]

/-- A falsy parse counts the whole remaining batch as progress with no
update calls. -/
theorem process_batch_falsy_eq (replaceExisting : Bool) (cacheKeys : List String)
    (parsed tagOracle : Option JsonVal) (batch : List Recipe)
    (cachedCount : Nat) (remaining : List Recipe)
    (hcc : (if replaceExisting then 0
      else (batch.filter (slugInCache cacheKeys)).length) = cachedCount)
    (hrem : (if replaceExisting then batch
      else batch.filter (fun r => !(slugInCache cacheKeys r))) = remaining)
    (hb : batch.isEmpty = false) (hre : remaining.isEmpty = false)
    (hp : pyTruthyOpt parsed = false) :
    process_batch replaceExisting cacheKeys parsed tagOracle batch =
      ⟨true, [], cachedCount + remaining.length, false⟩ := by
  rw [process_batch_eq replaceExisting cacheKeys parsed tagOracle batch cachedCount
      remaining hcc hrem,
    if_neg (by rw [hb]; exact Bool.false_ne_true),
    if_neg (by rw [hre]; exact Bool.false_ne_true),
    if_pos (by rw [hp]; rfl)]

/-- A truthy parse dispatches on whether the parsed value is a list. -/
theorem process_batch_truthy_eq (replaceExisting : Bool) (cacheKeys : List String)
    (parsed tagOracle : Option JsonVal) (batch : List Recipe)
    (cachedCount : Nat) (remaining : List Recipe)
    (hcc : (if replaceExisting then 0
      else (batch.filter (slugInCache cacheKeys)).length) = cachedCount)
    (hrem : (if replaceExisting then batch
      else batch.filter (fun r => !(slugInCache cacheKeys r))) = remaining)
    (hb : batch.isEmpty = false) (hre : remaining.isEmpty = false)
    (hp : pyTruthyOpt parsed = true) :
    process_batch replaceExisting cacheKeys parsed tagOracle batch =
      match parsedEntries parsed with
      | some entries => processParsedEntries cachedCount remaining tagOracle entries
      | none => ⟨true, [], cachedCount + remaining.length, false⟩ := by
  rw [process_batch_eq replaceExisting cacheKeys parsed tagOracle batch cachedCount
      remaining hcc hrem,
    if_neg (by rw [hb]; exact Bool.false_ne_true),
    if_neg (by rw [hre]; exact Bool.false_ne_true),
    if_neg (by rw [hp]; exact Bool.false_ne_true)]
  cases parsed with
  | none => rfl
  | some v => cases v <;> rfl

/-- Truthy non-list parse: the remaining batch is counted, no updates. -/
theorem process_batch_nonlist_eq (replaceExisting : Bool) (cacheKeys : List String)
    (parsed tagOracle : Option JsonVal) (batch : List Recipe)
    (cachedCount : Nat) (remaining : List Recipe)
    (hcc : (if replaceExisting then 0
      else (batch.filter (slugInCache cacheKeys)).length) = cachedCount)
    (hrem : (if replaceExisting then batch
      else batch.filter (fun r => !(slugInCache cacheKeys r))) = remaining)
    (hb : batch.isEmpty = false) (hre : remaining.isEmpty = false)
    (hp : pyTruthyOpt parsed = true) (hpe : parsedEntries parsed = none) :
    process_batch replaceExisting cacheKeys parsed tagOracle batch =
      ⟨true, [], cachedCount + remaining.length, false⟩ := by
  rw [process_batch_truthy_eq replaceExisting cacheKeys parsed tagOracle batch
    cachedCount remaining hcc hrem hb hre hp, hpe]

/-- Truthy list parse: the entries stage runs. -/
theorem process_batch_list_eq (replaceExisting : Bool) (cacheKeys : List String)
    (parsed tagOracle : Option JsonVal) (batch : List Recipe)
    (cachedCount : Nat) (remaining : List Recipe)
    (hcc : (if replaceExisting then 0
      else (batch.filter (slugInCache cacheKeys)).length) = cachedCount)
    (hrem : (if replaceExisting then batch
      else batch.filter (fun r => !(slugInCache cacheKeys r))) = remaining)
    (hb : batch.isEmpty = false) (hre : remaining.isEmpty = false)
    (hp : pyTruthyOpt parsed = true) (entries : List JsonVal)
    (hpe : parsedEntries parsed = some entries) :
    process_batch replaceExisting cacheKeys parsed tagOracle batch =
      processParsedEntries cachedCount remaining tagOracle entries := by
  rw [process_batch_truthy_eq replaceExisting cacheKeys parsed tagOracle batch
    cachedCount remaining hcc hrem hb hre hp, hpe]

/-- Entries stage when the tag back-fill raises. -/
theorem processParsedEntries_ensure_none (cachedCount : Nat) (remaining : List Recipe)
    (tagOracle : Option JsonVal) (entries : List JsonVal)
    (hens : ensure_tags_for_entries entries (buildRecipesBySlug remaining) tagOracle =
      none) :
    processParsedEntries cachedCount remaining tagOracle entries =
      ⟨true, [], cachedCount, true⟩ := by
  show (match ensure_tags_for_entries entries (buildRecipesBySlug remaining) tagOracle with
    | none => (⟨true, [], cachedCount, true⟩ : BatchOutcome)
    | some entries2 =>
      if (processEntries entries2 (buildRecipesBySlug remaining)).2 then
        ⟨true, (processEntries entries2 (buildRecipesBySlug remaining)).1,
          cachedCount, true⟩
      else
        ⟨true, (processEntries entries2 (buildRecipesBySlug remaining)).1,
          cachedCount + (buildRecipesBySlug remaining).length, false⟩) =
    ⟨true, [], cachedCount, true⟩
  rw [hens]

/-- Entries stage when the suggestion loop raises. -/
theorem processParsedEntries_crash (cachedCount : Nat) (remaining : List Recipe)
    (tagOracle : Option JsonVal) (entries entries2 : List JsonVal)
    (hens : ensure_tags_for_entries entries (buildRecipesBySlug remaining) tagOracle =
      some entries2)
    (hcr : (processEntries entries2 (buildRecipesBySlug remaining)).2 = true) :
    processParsedEntries cachedCount remaining tagOracle entries =
      ⟨true, (processEntries entries2 (buildRecipesBySlug remaining)).1,
        cachedCount, true⟩ := by
  show (match ensure_tags_for_entries entries (buildRecipesBySlug remaining) tagOracle with
    | none => (⟨true, [], cachedCount, true⟩ : BatchOutcome)
    | some e2 =>
      if (processEntries e2 (buildRecipesBySlug remaining)).2 then
        ⟨true, (processEntries e2 (buildRecipesBySlug remaining)).1,
          cachedCount, true⟩
      else
        ⟨true, (processEntries e2 (buildRecipesBySlug remaining)).1,
          cachedCount + (buildRecipesBySlug remaining).length, false⟩) = _
  rw [hens]
  show (if (processEntries entries2 (buildRecipesBySlug remaining)).2 = true then
      (⟨true, (processEntries entries2 (buildRecipesBySlug remaining)).1,
        cachedCount, true⟩ : BatchOutcome)
    else
      ⟨true, (processEntries entries2 (buildRecipesBySlug remaining)).1,
        cachedCount + (buildRecipesBySlug remaining).length, false⟩) = _
  rw [if_pos hcr]

/-- Entries stage when the suggestion loop finishes: progress advances by
the size of the `recipes_by_slug` dict. -/
theorem processParsedEntries_ok (cachedCount : Nat) (remaining : List Recipe)
    (tagOracle : Option JsonVal) (entries entries2 : List JsonVal)
    (hens : ensure_tags_for_entries entries (buildRecipesBySlug remaining) tagOracle =
      some entries2)
    (hcr : (processEntries entries2 (buildRecipesBySlug remaining)).2 = false) :
    processParsedEntries cachedCount remaining tagOracle entries =
      ⟨true, (processEntries entries2 (buildRecipesBySlug remaining)).1,
        cachedCount + (buildRecipesBySlug remaining).length, false⟩ := by
  show (match ensure_tags_for_entries entries (buildRecipesBySlug remaining) tagOracle with
    | none => (⟨true, [], cachedCount, true⟩ : BatchOutcome)
    | some e2 =>
      if (processEntries e2 (buildRecipesBySlug remaining)).2 then
        ⟨true, (processEntries e2 (buildRecipesBySlug remaining)).1,
          cachedCount, true⟩
      else
        ⟨true, (processEntries e2 (buildRecipesBySlug remaining)).1,
          cachedCount + (buildRecipesBySlug remaining).length, false⟩) = _
  rw [hens]
  show (if (processEntries entries2 (buildRecipesBySlug remaining)).2 = true then
      (⟨true, (processEntries entries2 (buildRecipesBySlug remaining)).1,
        cachedCount, true⟩ : BatchOutcome)
    else
      ⟨true, (processEntries entries2 (buildRecipesBySlug remaining)).1,
        cachedCount + (buildRecipesBySlug remaining).length, false⟩) = _
  rw [if_neg (by rw [hcr]; exact Bool.false_ne_true)]

/-- In either mode the cached count plus the remaining length is the batch
length. -/
theorem cached_plus_remaining (replaceExisting : Bool) (cacheKeys : List String)
    (batch : List Recipe) :
    (if replaceExisting then 0 else (batch.filter (slugInCache cacheKeys)).length) +
      (if replaceExisting then batch
        else batch.filter (fun r => !(slugInCache cacheKeys r))).length =
      batch.length := by
  cases replaceExisting
  · show (batch.filter (slugInCache cacheKeys)).length +
      (batch.filter (fun r => !(slugInCache cacheKeys r))).length = batch.length
    exact filter_partition_length (slugInCache cacheKeys) batch
  · show 0 + batch.length = batch.length
    omega

/-- The remaining batch is a sublist of the batch in either mode. -/
theorem remaining_sublist (replaceExisting : Bool) (cacheKeys : List String)
    (batch : List Recipe) :
    List.Sublist (if replaceExisting then batch
      else batch.filter (fun r => !(slugInCache cacheKeys r))) batch := by
  cases replaceExisting
  · exact List.filter_sublist batch
  · exact List.Sublist.refl batch

/-- The progress recorded by one `process_batch` call never exceeds the
batch length. -/
theorem process_batch_progress_le (replaceExisting : Bool) (cacheKeys : List String)
    (parsed tagOracle : Option JsonVal) (batch : List Recipe) :
    (process_batch replaceExisting cacheKeys parsed tagOracle batch).progress ≤
      batch.length := by
  have hkey := cached_plus_remaining replaceExisting cacheKeys batch
  set C := (if replaceExisting then 0
    else (batch.filter (slugInCache cacheKeys)).length) with hC
  set R := (if replaceExisting then batch
    else batch.filter (fun r => !(slugInCache cacheKeys r))) with hR
  by_cases hb : batch.isEmpty = true
  · rw [process_batch_empty_eq replaceExisting cacheKeys parsed tagOracle batch hb]
    exact Nat.zero_le batch.length
  · have hb' : batch.isEmpty = false := Bool.eq_false_iff.mpr hb
    by_cases hre : R.isEmpty = true
    · rw [process_batch_allCached_eq replaceExisting cacheKeys parsed tagOracle batch
        C R hC.symm hR.symm hb' hre]
      exact Nat.le_trans (Nat.le_add_right C R.length) (Nat.le_of_eq hkey)
    · have hre' : R.isEmpty = false := Bool.eq_false_iff.mpr hre
      cases hp : pyTruthyOpt parsed with
      | false =>
        rw [process_batch_falsy_eq replaceExisting cacheKeys parsed tagOracle batch
          C R hC.symm hR.symm hb' hre' hp]
        exact Nat.le_of_eq hkey
      | true =>
        cases hpe : parsedEntries parsed with
        | none =>
          rw [process_batch_nonlist_eq replaceExisting cacheKeys parsed tagOracle batch
            C R hC.symm hR.symm hb' hre' hp hpe]
          exact Nat.le_of_eq hkey
        | some entries =>
          rw [process_batch_list_eq replaceExisting cacheKeys parsed tagOracle batch
            C R hC.symm hR.symm hb' hre' hp entries hpe]
          cases hens : ensure_tags_for_entries entries (buildRecipesBySlug R)
              tagOracle with
          | none =>
            rw [processParsedEntries_ensure_none C R tagOracle entries hens]
            exact Nat.le_trans (Nat.le_add_right C R.length) (Nat.le_of_eq hkey)
          | some entries2 =>
            cases hcr : (processEntries entries2 (buildRecipesBySlug R)).2 with
            | true =>
              rw [processParsedEntries_crash C R tagOracle entries entries2 hens hcr]
              exact Nat.le_trans (Nat.le_add_right C R.length) (Nat.le_of_eq hkey)
            | false =>
              rw [processParsedEntries_ok C R tagOracle entries entries2 hens hcr]
              have hbuild := foldl_rbsStep_length_le R []
              simp only [List.length_nil] at hbuild
              have hb2 : (buildRecipesBySlug R).length =
                (List.foldl rbsStep [] R).length := rfl
              show C + (buildRecipesBySlug R).length ≤ batch.length
              omega

/-- With all slugs truthy and pairwise distinct, a non-crashing
`process_batch` call records exactly the batch length as progress. -/
theorem process_batch_progress_eq (replaceExisting : Bool) (cacheKeys : List String)
    (parsed tagOracle : Option JsonVal) (batch : List Recipe)
    (h1 : ∀ r ∈ batch, (truthySlug r).isSome = true)
    (h2 : (batch.filterMap truthySlug).Nodup)
    (hnc : (process_batch replaceExisting cacheKeys parsed tagOracle batch).crashed =
      false) :
    (process_batch replaceExisting cacheKeys parsed tagOracle batch).progress =
      batch.length := by
  have hkey := cached_plus_remaining replaceExisting cacheKeys batch
  have hsub := remaining_sublist replaceExisting cacheKeys batch
  set C := (if replaceExisting then 0
    else (batch.filter (slugInCache cacheKeys)).length) with hC
  set R := (if replaceExisting then batch
    else batch.filter (fun r => !(slugInCache cacheKeys r))) with hR
  by_cases hb : batch.isEmpty = true
  · rw [process_batch_empty_eq replaceExisting cacheKeys parsed tagOracle batch hb]
    show 0 = batch.length
    rw [List.isEmpty_iff.mp hb]
    rfl
  · have hb' : batch.isEmpty = false := Bool.eq_false_iff.mpr hb
    by_cases hre : R.isEmpty = true
    · rw [process_batch_allCached_eq replaceExisting cacheKeys parsed tagOracle batch
        C R hC.symm hR.symm hb' hre]
      have hR0 : R.length = 0 := by
        rw [List.isEmpty_iff.mp hre]
        rfl
      show C = batch.length
      omega
    · have hre' : R.isEmpty = false := Bool.eq_false_iff.mpr hre
      cases hp : pyTruthyOpt parsed with
      | false =>
        rw [process_batch_falsy_eq replaceExisting cacheKeys parsed tagOracle batch
          C R hC.symm hR.symm hb' hre' hp]
        exact hkey
      | true =>
        cases hpe : parsedEntries parsed with
        | none =>
          rw [process_batch_nonlist_eq replaceExisting cacheKeys parsed tagOracle batch
            C R hC.symm hR.symm hb' hre' hp hpe]
          exact hkey
        | some entries =>
          rw [process_batch_list_eq replaceExisting cacheKeys parsed tagOracle batch
            C R hC.symm hR.symm hb' hre' hp entries hpe] at hnc ⊢
          cases hens : ensure_tags_for_entries entries (buildRecipesBySlug R)
              tagOracle with
          | none =>
            rw [processParsedEntries_ensure_none C R tagOracle entries hens] at hnc
            exact Bool.noConfusion hnc
          | some entries2 =>
            cases hcr : (processEntries entries2 (buildRecipesBySlug R)).2 with
            | true =>
              rw [processParsedEntries_crash C R tagOracle entries entries2
                hens hcr] at hnc
              exact Bool.noConfusion hnc
            | false =>
              rw [processParsedEntries_ok C R tagOracle entries entries2 hens hcr]
              have hR1 : ∀ r ∈ R, (truthySlug r).isSome = true :=
                fun r hr => h1 r (hsub.subset hr)
              have hR2 : (R.filterMap truthySlug).Nodup :=
                List.Nodup.sublist (List.Sublist.filterMap truthySlug hsub) h2
              have hlen := foldl_rbsStep_length_eq R [] hR1 hR2 (fun s _ => rfl)
              simp only [List.length_nil] at hlen
              have hb2 : (buildRecipesBySlug R).length =
                (List.foldl rbsStep [] R).length := rfl
              show C + (buildRecipesBySlug R).length = batch.length
              omega

/-- Pointwise-dominated stage lists have dominated sums. -/
theorem sum_le_of_forall2 {a b : List Nat}
    (h : List.Forall₂ (fun x y => x ≤ y) a b) : a.sum ≤ b.sum := by
  induction h with
  | nil => exact Nat.le_refl 0
  | cons hab ht ih =>
    simp only [List.sum_cons]
    omega

/-- Run-level upper bound: the per-batch progress contributions of a run sum
to at most the total number of targeted recipes. -/
theorem run_progress_le (replaceExisting : Bool) (cacheKeys : List String) :
    ∀ inputs : List BatchInput,
      (inputs.map (batchProgress replaceExisting cacheKeys)).sum ≤
        ((inputs.map BatchInput.batch).flatten).length := by
  intro inputs
  induction inputs with
  | nil => exact Nat.le_refl 0
  | cons bi rest ih =>
    simp only [List.map_cons, List.flatten_cons, List.sum_cons, List.length_append]
    have h := process_batch_progress_le replaceExisting cacheKeys bi.parsed
      bi.tagOracle bi.batch
    have hbp : batchProgress replaceExisting cacheKeys bi =
      (process_batch replaceExisting cacheKeys bi.parsed bi.tagOracle
        bi.batch).progress := rfl
    omega

/-- Run-level exact accounting: with all targeted slugs truthy and pairwise
distinct and no batch crashing, the per-batch progress contributions sum to
exactly the total number of targeted recipes. -/
theorem run_progress_sum (replaceExisting : Bool) (cacheKeys : List String) :
    ∀ inputs : List BatchInput,
      (∀ r ∈ (inputs.map BatchInput.batch).flatten, (truthySlug r).isSome = true) →
      ((inputs.map BatchInput.batch).flatten.filterMap truthySlug).Nodup →
      (∀ bi ∈ inputs,
        (process_batch replaceExisting cacheKeys bi.parsed bi.tagOracle
          bi.batch).crashed = false) →
      (inputs.map (batchProgress replaceExisting cacheKeys)).sum =
        ((inputs.map BatchInput.batch).flatten).length := by
  intro inputs
  induction inputs with
  | nil => intro _ _ _; rfl
  | cons bi rest ih =>
    intro h1 h2 h3
    simp only [List.map_cons, List.flatten_cons] at h1 h2
    rw [List.filterMap_append] at h2
    have h1a : ∀ r ∈ bi.batch, (truthySlug r).isSome = true :=
      fun r hr => h1 r (List.mem_append.mpr (Or.inl hr))
    have h1b : ∀ r ∈ (rest.map BatchInput.batch).flatten,
        (truthySlug r).isSome = true :=
      fun r hr => h1 r (List.mem_append.mpr (Or.inr hr))
    have h2a := List.Nodup.of_append_left h2
    have h2b := List.Nodup.of_append_right h2
    have h3a := h3 bi (List.mem_cons_self bi rest)
    have h3b : ∀ b ∈ rest,
        (process_batch replaceExisting cacheKeys b.parsed b.tagOracle
          b.batch).crashed = false :=
      fun b hb => h3 b (List.mem_cons_of_mem bi hb)
    simp only [List.map_cons, List.flatten_cons, List.sum_cons, List.length_append]
    rw [show batchProgress replaceExisting cacheKeys bi =
      (process_batch replaceExisting cacheKeys bi.parsed bi.tagOracle
        bi.batch).progress from rfl]
    rw [process_batch_progress_eq replaceExisting cacheKeys bi.parsed bi.tagOracle
      bi.batch h1a h2a h3a]
    rw [ih h1b h2b h3b]

/-- The batch slices concatenate back to the whole target list. -/
theorem batchRecipesF_flatten : ∀ (fuel : Nat) (l : List Recipe) (size : Nat),
    0 < size → l.length ≤ fuel → (batchRecipesF fuel l size).flatten = l := by
  intro fuel
  induction fuel with
  | zero =>
    intro l size _ hlen
    cases l with
    | nil => rfl
    | cons r rest => simp at hlen
  | succ fuel ih =>
    intro l size hs hlen
    cases l with
    | nil => rfl
    | cons r rest =>
      have hfuel : ((r :: rest).drop size).length ≤ fuel := by
        have hd := List.length_drop size (r :: rest)
        have hl : (r :: rest).length = rest.length + 1 := rfl
        omega
      show ((r :: rest).take size ::
        batchRecipesF fuel ((r :: rest).drop size) size).flatten = r :: rest
      rw [List.flatten_cons, ih ((r :: rest).drop size) size hs hfuel]
      exact List.take_append_drop size (r :: rest)

/-- `batch_recipes` partitions the target list exactly. -/
theorem batch_recipes_flatten (targets : List Recipe) (size : Nat) (hs : 0 < size) :
    (batch_recipes targets size).flatten = targets :=
  batchRecipesF_flatten targets.length targets size hs (Nat.le_refl targets.length)

/-- C3 (amended): the progress counter is monotone (`advance_progress` only
adds), the batches of a run slice the target list exactly (for a positive
batch size), the summed per-batch progress never exceeds the number of
targeted recipes (`done ≤ total` with `total` fixed at the target count),
and — provided every targeted recipe has a truthy slug, the slugs are
pairwise distinct, and no batch lets an exception escape — the summed
progress equals the target count exactly.  Without those provisos the code
can undercount (see the counterexample), so the unconditional exactness of
the original claim does not hold. -/
theorem C3_progress_accounting_amended :
    (∀ done count : Nat, done ≤ advance_progress done count) ∧
    (∀ (targets : List Recipe) (size : Nat), 0 < size →
      (batch_recipes targets size).flatten = targets) ∧
    (∀ (replaceExisting : Bool) (cacheKeys : List String) (inputs : List BatchInput),
      (inputs.map (batchProgress replaceExisting cacheKeys)).sum ≤
        ((inputs.map BatchInput.batch).flatten).length) ∧
    (∀ (replaceExisting : Bool) (cacheKeys : List String) (inputs : List BatchInput),
      (∀ r ∈ (inputs.map BatchInput.batch).flatten, (truthySlug r).isSome = true) →
      ((inputs.map BatchInput.batch).flatten.filterMap truthySlug).Nodup →
      (∀ bi ∈ inputs,
        (process_batch replaceExisting cacheKeys bi.parsed bi.tagOracle
          bi.batch).crashed = false) →
      (inputs.map (batchProgress replaceExisting cacheKeys)).sum =
        ((inputs.map BatchInput.batch).flatten).length) :=
  ⟨fun done count => Nat.le_add_right done count,
   fun targets size hs => batch_recipes_flatten targets size hs,
   fun replaceExisting cacheKeys inputs => run_progress_le replaceExisting cacheKeys inputs,
   fun replaceExisting cacheKeys inputs h1 h2 h3 =>
     run_progress_sum replaceExisting cacheKeys inputs h1 h2 h3⟩

/-- C3 witness: a concrete two-batch run over recipes `r1`, `r2` (batch size
one, empty cache, both queries failing) satisfies the hygiene hypotheses and
records total progress exactly two. -/
theorem C3_progress_accounting_amended_witness :
    (0 < 1 ∧ (batch_recipes [⟨some "r1", [], []⟩] 1).flatten =
      [(⟨some "r1", [], []⟩ : Recipe)]) ∧
    (∀ r ∈ (([⟨none, none, [⟨some "r1", [], []⟩]⟩,
        ⟨none, none, [⟨some "r2", [], []⟩]⟩] : List BatchInput).map
        BatchInput.batch).flatten, (truthySlug r).isSome = true) ∧
    ((([⟨none, none, [⟨some "r1", [], []⟩]⟩,
        ⟨none, none, [⟨some "r2", [], []⟩]⟩] : List BatchInput).map
        BatchInput.batch).flatten.filterMap truthySlug).Nodup ∧
    (∀ bi ∈ ([⟨none, none, [⟨some "r1", [], []⟩]⟩,
        ⟨none, none, [⟨some "r2", [], []⟩]⟩] : List BatchInput),
      (process_batch false [] bi.parsed bi.tagOracle bi.batch).crashed = false) ∧
    (([⟨none, none, [⟨some "r1", [], []⟩]⟩,
        ⟨none, none, [⟨some "r2", [], []⟩]⟩] : List BatchInput).map
        (batchProgress false [])).sum =
      ((([⟨none, none, [⟨some "r1", [], []⟩]⟩,
        ⟨none, none, [⟨some "r2", [], []⟩]⟩] : List BatchInput).map
        BatchInput.batch).flatten).length :=
  ⟨⟨by decide, C3_progress_accounting_amended.2.1 [⟨some "r1", [], []⟩] 1 (by decide)⟩,
   by decide, by decide, by decide,
   C3_progress_accounting_amended.2.2.2 false []
     [⟨none, none, [⟨some "r1", [], []⟩]⟩, ⟨none, none, [⟨some "r2", [], []⟩]⟩]
     (by decide) (by decide) (by decide)⟩

/-- C3 counterexample: a batch that completes without an escaping exception
but whose only recipe has no truthy slug advances progress by zero, so a
run's final `done` can fall short of `total` even though every batch
completed. -/
theorem C3_counterexample :
    (process_batch false [] (some (.arr [.obj [("slug", .str "x")]])) none
      [⟨none, [], []⟩]).crashed = false ∧
    (process_batch false [] (some (.arr [.obj [("slug", .str "x")]])) none
      [⟨none, [], []⟩]).progress = 0 ∧
    ([(⟨none, [], []⟩ : Recipe)] : List Recipe).length = 1 :=
  ⟨rfl, rfl, rfl⟩

end Mealie
